import Mathlib

/-!
Verification of the contact-manager domain logic (assistant_bot.py).

This file gives a shallow embedding, in Lean 4, of the data model and the
operations of the contact manager: phone and birthday validation, the name
normalizer, the contact record operations, the address book (repository)
operations, the command handlers that mutate the book, and the
upcoming-birthday scheduler.  Theorems about the embedded definitions settle
the specification claims.

Modelling conventions:
* Python strings are embedded as `List Char` (`Str`).  The program's text
  handling is within the ASCII fragment (the spec scopes name handling to
  ASCII capitalization); accordingly `str.lower`, `str.upper`,
  `str.capitalize`, `str.isdigit` and `str.isspace` are embedded by their
  ASCII semantics, which coincide with Python's on ASCII text.
* Fallible constructors (raising `ValueError` in Python) are embedded as
  `Option`-returning functions; a `try/except ValueError` block around a
  computation is embedded by matching on the `Option`.
* `datetime.date` is embedded as a `year`/`month`/`day` structure; Python
  date comparison is lexicographic on (year, month, day), `date.replace`
  is partial (fails on an invalid resulting date, e.g. Feb 29 of a
  non-leap year, or a year outside 1..9999), `timedelta` addition steps
  through successor days and fails (OverflowError in Python) when the
  result would pass `date.max` = 9999-12-31, and `weekday()` is computed
  from the proleptic Gregorian ordinal (Monday = 0, matching Python).
  An error that no except clause of the embedded code catches is
  modelled as a none result of the enclosing operation.
* The current date (`datetime.today()`) is passed explicitly as a `today`
  parameter.
* The mutable `AddressBook` dict is embedded as an association list in
  insertion order, which is exactly the iteration and update order of a
  Python dict (an update of an existing key keeps its position).
-/

/-- Python strings, embedded as lists of characters. -/
abbrev Str := List Char

/-! ## ASCII character operations (embedding of Python str methods, per char) -/

/-- Helper: `Char.toNat` of `Char.ofNat` for codepoints below the surrogate
range. -/
theorem toNat_charOfNat (n : Nat) (h : n < 55296) : (Char.ofNat n).toNat = n := by
  have hv : n.isValidChar := Or.inl h
  simp [Char.ofNat, hv, Char.toNat, Char.ofNatAux, UInt32.toNat, BitVec.toNat_ofNatLt]

/-- Characters are equal iff their codepoints are equal. -/
theorem char_eq_iff_toNat {a b : Char} : a = b ↔ a.toNat = b.toNat := by
  constructor
  · intro h; rw [h]
  · intro h
    have := congrArg Char.ofNat h
    rwa [Char.ofNat_toNat, Char.ofNat_toNat] at this

/-- Embedding of Python `str.lower` on one ASCII character: `A..Z` maps to
`a..z`, everything else is unchanged. -/
def pyToLower (c : Char) : Char :=
  if 65 ≤ c.toNat ∧ c.toNat ≤ 90 then Char.ofNat (c.toNat + 32) else c

/-- Embedding of Python `str.upper` on one ASCII character: `a..z` maps to
`A..Z`, everything else is unchanged. -/
def pyToUpper (c : Char) : Char :=
  if 97 ≤ c.toNat ∧ c.toNat ≤ 122 then Char.ofNat (c.toNat - 32) else c

/-- Embedding of Python `str.isspace` on one ASCII character. -/
def pyIsSpace (c : Char) : Bool :=
  c.toNat = 32 || c.toNat = 9 || c.toNat = 10 || c.toNat = 13 ||
    c.toNat = 11 || c.toNat = 12

/-- Embedding of Python `str.isdigit` on one ASCII character. -/
def pyIsDigit (c : Char) : Bool :=
  48 ≤ c.toNat && c.toNat ≤ 57

theorem toNat_pyToLower (c : Char) :
    (pyToLower c).toNat = if 65 ≤ c.toNat ∧ c.toNat ≤ 90 then c.toNat + 32 else c.toNat := by
  unfold pyToLower
  split
  · next h => exact toNat_charOfNat (c.toNat + 32) (by omega)
  · rfl

theorem toNat_pyToUpper (c : Char) :
    (pyToUpper c).toNat = if 97 ≤ c.toNat ∧ c.toNat ≤ 122 then c.toNat - 32 else c.toNat := by
  unfold pyToUpper
  split
  · next h => exact toNat_charOfNat (c.toNat - 32) (by omega)
  · rfl

theorem pyToLower_pyToLower (c : Char) : pyToLower (pyToLower c) = pyToLower c := by
  rw [char_eq_iff_toNat, toNat_pyToLower, toNat_pyToLower]
  split_ifs <;> omega

theorem pyToUpper_pyToUpper (c : Char) : pyToUpper (pyToUpper c) = pyToUpper c := by
  rw [char_eq_iff_toNat, toNat_pyToUpper, toNat_pyToUpper]
  split_ifs <;> omega

theorem pyToUpper_pyToLower (c : Char) : pyToUpper (pyToLower c) = pyToUpper c := by
  rw [char_eq_iff_toNat, toNat_pyToUpper, toNat_pyToLower, toNat_pyToUpper]
  split_ifs <;> omega

theorem pyToLower_pyToUpper (c : Char) : pyToLower (pyToUpper c) = pyToLower c := by
  rw [char_eq_iff_toNat, toNat_pyToLower, toNat_pyToUpper, toNat_pyToLower]
  split_ifs <;> omega

theorem pyIsSpace_pyToLower (c : Char) : pyIsSpace (pyToLower c) = pyIsSpace c := by
  unfold pyIsSpace
  rw [toNat_pyToLower]
  split_ifs with h
  · rw [Bool.eq_iff_iff]
    simp only [Bool.or_eq_true, decide_eq_true_eq]
    omega
  · rfl

theorem pyIsSpace_pyToUpper (c : Char) : pyIsSpace (pyToUpper c) = pyIsSpace c := by
  unfold pyIsSpace
  rw [toNat_pyToUpper]
  split_ifs with h
  · rw [Bool.eq_iff_iff]
    simp only [Bool.or_eq_true, decide_eq_true_eq]
    omega
  · rfl

theorem char_beq_eq_toNat (a b : Char) : (a == b) = decide (a.toNat = b.toNat) := by
  rcases h : (a == b) with _ | _
  · have hne : a ≠ b := by simpa using h
    have : a.toNat ≠ b.toNat := fun hn => hne (char_eq_iff_toNat.mpr hn)
    simp [this]
  · have heq : a = b := by simpa using h
    simp [heq]

theorem beq_dash_pyToLower (c : Char) : (pyToLower c == '-') = (c == '-') := by
  rw [char_beq_eq_toNat, char_beq_eq_toNat, toNat_pyToLower,
    show ('-').toNat = 45 from rfl, decide_eq_decide]
  split_ifs with h <;> omega

theorem beq_dash_pyToUpper (c : Char) : (pyToUpper c == '-') = (c == '-') := by
  rw [char_beq_eq_toNat, char_beq_eq_toNat, toNat_pyToUpper,
    show ('-').toNat = 45 from rfl, decide_eq_decide]
  split_ifs with h <;> omega

/-! ## String-level operations (embedding of Python str methods) -/

/-- Lowercasing of a whole string: embedding of Python `str.lower` (ASCII). -/
def lowerStr (s : Str) : Str := s.map pyToLower

/-- Embedding of Python `str.isdigit` on a whole string: nonempty and all
characters digits. -/
def pyIsDigitStr (s : Str) : Bool := !s.isEmpty && s.all pyIsDigit

/-- Splitting on a character predicate, keeping empty pieces: Python
`str.split(sep)` for a one-character separator is `pySplitP (· == sep)`,
and Python `str.split()` (whitespace mode) is `pySplitP pyIsSpace` with
the empty pieces dropped afterwards. -/
def pySplitP (p : Char → Bool) : Str → List Str
  | [] => [[]]
  | c :: cs =>
    if p c then [] :: pySplitP p cs
    else
      match pySplitP p cs with
      | [] => [[c]]
      | w :: ws => (c :: w) :: ws

/-- Embedding of Python `sep.join(pieces)`. -/
def pyJoin (sep : Str) : List Str → Str
  | [] => []
  | [w] => w
  | w :: ws => w ++ sep ++ pyJoin sep ws

/-- Embedding of Python `str.strip()`: drop leading and trailing whitespace. -/
def pyStrip (s : Str) : Str :=
  ((s.dropWhile pyIsSpace).reverse.dropWhile pyIsSpace).reverse

/-- Embedding of Python `str.split()` with no arguments: split on whitespace
runs, dropping empty pieces. -/
def pySplitWs (s : Str) : List Str :=
  (pySplitP pyIsSpace s).filter (fun w => !w.isEmpty)

/-- Embedding of the Python substring test `needle in hay`. -/
def pyContains (hay needle : Str) : Bool :=
  hay.tails.any (fun t => needle.isPrefixOf t)

theorem pySplitP_cons (p : Char → Bool) (c : Char) (cs : Str) :
    pySplitP p (c :: cs) =
      if p c then [] :: pySplitP p cs
      else
        match pySplitP p cs with
        | [] => [[c]]
        | w :: ws => (c :: w) :: ws := rfl

theorem pySplitP_ne_nil (p : Char → Bool) (l : Str) : pySplitP p l ≠ [] := by
  cases l with
  | nil => simp [pySplitP]
  | cons c cs =>
    unfold pySplitP
    split
    · simp
    · split <;> simp

theorem mem_pySplitP_sep_free (p : Char → Bool) (l : Str) :
    ∀ w ∈ pySplitP p l, ∀ c ∈ w, p c = false := by
  induction l with
  | nil => simp [pySplitP]
  | cons c cs ih =>
    unfold pySplitP
    split
    · intro w hw
      rcases List.mem_cons.mp hw with h | h
      · simp [h]
      · exact ih w h
    · next hpc =>
      cases hsp : pySplitP p cs with
      | nil => exact absurd hsp (pySplitP_ne_nil p cs)
      | cons w ws =>
        simp only [hsp]
        intro u hu
        rcases List.mem_cons.mp hu with h | h
        · subst h
          intro d hd
          rcases List.mem_cons.mp hd with h | h
          · subst h; exact Bool.of_not_eq_true hpc
          · exact ih w (by simp [hsp]) d h
        · exact ih u (by simp [hsp, h])

theorem mem_of_mem_pySplitP (p : Char → Bool) (l : Str) :
    ∀ w ∈ pySplitP p l, ∀ c ∈ w, c ∈ l := by
  induction l with
  | nil => simp [pySplitP]
  | cons c cs ih =>
    unfold pySplitP
    split
    · intro w hw
      rcases List.mem_cons.mp hw with h | h
      · simp [h]
      · intro d hd; exact List.mem_cons_of_mem c (ih w h d hd)
    · cases hsp : pySplitP p cs with
      | nil => exact absurd hsp (pySplitP_ne_nil p cs)
      | cons w ws =>
        simp only [hsp]
        intro u hu d hd
        rcases List.mem_cons.mp hu with h | h
        · subst h
          rcases List.mem_cons.mp hd with h | h
          · simp [h]
          · exact List.mem_cons_of_mem c (ih w (by simp [hsp]) d h)
        · exact List.mem_cons_of_mem c (ih u (by simp [hsp, h]) d hd)

theorem pySplitP_sep_free_eq (p : Char → Bool) (l : Str)
    (h : ∀ c ∈ l, p c = false) : pySplitP p l = [l] := by
  induction l with
  | nil => rfl
  | cons c cs ih =>
    unfold pySplitP
    rw [h c (by simp)]
    simp only [Bool.false_eq_true, if_false]
    rw [ih (fun d hd => h d (List.mem_cons_of_mem c hd))]

theorem pySplitP_append_sep (p : Char → Bool) (w rest : Str) (sep : Char)
    (hsep : p sep = true) (hw : ∀ c ∈ w, p c = false) :
    pySplitP p (w ++ sep :: rest) = w :: pySplitP p rest := by
  induction w with
  | nil => simp [pySplitP, hsep]
  | cons c cs ih =>
    have hc : p c = false := hw c (by simp)
    have ihe := ih (fun d hd => hw d (List.mem_cons_of_mem c hd))
    simp only [List.cons_append]
    rw [pySplitP_cons, hc]
    simp only [Bool.false_eq_true, if_false, ihe]

theorem pySplitP_pyJoin (p : Char → Bool) (sep : Char) (ws : List Str)
    (hsep : p sep = true) (hws : ∀ w ∈ ws, ∀ c ∈ w, p c = false) (hne : ws ≠ []) :
    pySplitP p (pyJoin [sep] ws) = ws := by
  induction ws with
  | nil => exact absurd rfl hne
  | cons w ws ih =>
    cases ws with
    | nil => exact pySplitP_sep_free_eq p w (hws w (by simp))
    | cons w2 ws2 =>
      have hjoin : pyJoin [sep] (w :: w2 :: ws2) = w ++ sep :: pyJoin [sep] (w2 :: ws2) := by
        simp [pyJoin]
      rw [hjoin, pySplitP_append_sep p w _ sep hsep (hws w (by simp))]
      rw [ih (fun u hu => hws u (List.mem_cons_of_mem w hu)) (by simp)]

theorem pyJoin_pySplitP (p : Char → Bool) (sep : Char) (l : Str)
    (hsep : ∀ c, p c = true ↔ c = sep) :
    pyJoin [sep] (pySplitP p l) = l := by
  induction l with
  | nil => rfl
  | cons c cs ih =>
    unfold pySplitP
    by_cases hc : p c = true
    · rw [if_pos hc]
      have : c = sep := (hsep c).mp hc
      subst this
      cases hsp : pySplitP p cs with
      | nil => exact absurd hsp (pySplitP_ne_nil p cs)
      | cons w ws =>
        rw [hsp] at ih
        simp [pyJoin, ← ih]
    · rw [if_neg hc]
      cases hsp : pySplitP p cs with
      | nil => exact absurd hsp (pySplitP_ne_nil p cs)
      | cons w ws =>
        rw [hsp] at ih
        cases ws with
        | nil => simpa [pyJoin] using congrArg (c :: ·) ih
        | cons w2 ws2 => simpa [pyJoin] using congrArg (c :: ·) ih

/-! ## Name normalizer (embedding of normalize_name, src lines 208-212) -/

/-- Embedding of Python `str.capitalize` (ASCII): first character uppercased,
the rest lowercased; the empty string is unchanged. -/
def pyCapitalize (w : Str) : Str :=
  match w with
  | [] => []
  | c :: cs => pyToUpper c :: cs.map pyToLower

/-- Embedding of the inner helper of normalize_name:
join of the capitalized dash-separated subparts. -/
def fix_part (part : Str) : Str :=
  pyJoin ['-'] ((pySplitP (· == '-') part).map pyCapitalize)

/-- Embedding of normalize_name: strip, split on whitespace, fix each word,
rejoin with single spaces. -/
def normalize_name (name : Str) : Str :=
  pyJoin [' '] ((pySplitWs (pyStrip name)).map fix_part)

theorem mem_pyCapitalize (w : Str) (c : Char) (hc : c ∈ pyCapitalize w) :
    ∃ d ∈ w, c = pyToUpper d ∨ c = pyToLower d := by
  match w with
  | [] => cases hc
  | d :: ds =>
    simp only [pyCapitalize, List.mem_cons] at hc
    rcases hc with h | h
    · exact ⟨d, by simp, Or.inl h⟩
    · rcases List.mem_map.mp h with ⟨e, he, hce⟩
      exact ⟨e, List.mem_cons_of_mem d he, Or.inr hce.symm⟩

theorem pyCapitalize_ne_nil (w : Str) (hw : w ≠ []) : pyCapitalize w ≠ [] := by
  match w with
  | [] => exact absurd rfl hw
  | c :: cs => simp [pyCapitalize]

theorem pyCapitalize_pyCapitalize (w : Str) :
    pyCapitalize (pyCapitalize w) = pyCapitalize w := by
  match w with
  | [] => rfl
  | c :: cs =>
    simp only [pyCapitalize, pyToUpper_pyToUpper, List.map_map]
    refine congrArg _ (List.map_congr_left fun d _ => ?_)
    exact pyToLower_pyToLower d

theorem pyCapitalize_map_pyToLower (w : Str) :
    pyCapitalize (w.map pyToLower) = pyCapitalize w := by
  match w with
  | [] => rfl
  | c :: cs =>
    simp only [pyCapitalize, List.map_cons, pyToUpper_pyToLower, List.map_map]
    refine congrArg _ (List.map_congr_left fun d _ => ?_)
    exact pyToLower_pyToLower d

theorem mem_pyJoin (sep : Str) (ws : List Str) (c : Char) (hc : c ∈ pyJoin sep ws) :
    c ∈ sep ∨ ∃ w ∈ ws, c ∈ w := by
  induction ws with
  | nil => cases hc
  | cons w ws ih =>
    cases ws with
    | nil =>
      right
      exact ⟨w, by simp, hc⟩
    | cons w2 ws2 =>
      simp only [pyJoin, List.append_assoc, List.mem_append] at hc
      rcases hc with h | h | h
      · exact Or.inr ⟨w, by simp, h⟩
      · exact Or.inl h
      · rcases ih h with h2 | ⟨u, hu, hcu⟩
        · exact Or.inl h2
        · exact Or.inr ⟨u, List.mem_cons_of_mem w hu, hcu⟩

theorem pyJoin_eq_nil (sep : Str) (ws : List Str) (hsep : sep ≠ [])
    (h : pyJoin sep ws = []) : ws = [] ∨ ws = [[]] := by
  match ws with
  | [] => exact Or.inl rfl
  | [w] => exact Or.inr (by simpa using h)
  | w :: w2 :: ws2 =>
    exfalso
    simp only [pyJoin, List.append_assoc, List.append_eq_nil] at h
    exact hsep h.2.1

theorem pySplitP_eq_single_nil (p : Char → Bool) (l : Str)
    (h : pySplitP p l = [[]]) : l = [] := by
  match l with
  | [] => rfl
  | c :: cs =>
    exfalso
    rw [pySplitP_cons] at h
    by_cases hc : p c = true
    · rw [if_pos hc] at h
      have := pySplitP_ne_nil p cs
      simp only [List.cons.injEq] at h
      exact this h.2
    · rw [if_neg hc] at h
      cases hsp : pySplitP p cs with
      | nil => exact pySplitP_ne_nil p cs hsp
      | cons w ws2 =>
        rw [hsp] at h
        simp at h

theorem fix_part_ne_nil (w : Str) (hw : w ≠ []) : fix_part w ≠ [] := by
  intro h
  unfold fix_part at h
  rcases pyJoin_eq_nil _ _ (by simp) h with h2 | h2
  · exact pySplitP_ne_nil _ w (by simpa using h2)
  · rcases hps : pySplitP (· == '-') w with _ | ⟨u, us⟩
    · exact pySplitP_ne_nil _ w hps
    · rw [hps] at h2
      simp only [List.map_cons, List.cons.injEq] at h2
      obtain ⟨hcap, hus⟩ := h2
      have hus2 : us = [] := by
        cases us with
        | nil => rfl
        | cons a as => simp at hus
      subst hus2
      have hune : u ≠ [] := by
        intro hn
        subst hn
        exact hw (pySplitP_eq_single_nil _ w hps)
      exact pyCapitalize_ne_nil u hune hcap

theorem fix_part_space_free (w : Str) (hw : ∀ c ∈ w, pyIsSpace c = false) :
    ∀ c ∈ fix_part w, pyIsSpace c = false := by
  intro c hc
  rcases mem_pyJoin _ _ c hc with h | ⟨u, hu, hcu⟩
  · simp only [List.mem_singleton] at h
    subst h
    decide
  · rcases List.mem_map.mp hu with ⟨v, hv, hvc⟩
    subst hvc
    rcases mem_pyCapitalize v c hcu with ⟨d, hd, hcd | hcd⟩
    · subst hcd
      rw [pyIsSpace_pyToUpper]
      exact hw d (mem_of_mem_pySplitP _ w v hv d hd)
    · subst hcd
      rw [pyIsSpace_pyToLower]
      exact hw d (mem_of_mem_pySplitP _ w v hv d hd)

theorem fix_part_dash_free_pieces (w : Str) :
    ∀ u ∈ (pySplitP (· == '-') w).map pyCapitalize, ∀ c ∈ u, (c == '-') = false := by
  intro u hu c hc
  rcases List.mem_map.mp hu with ⟨v, hv, hvc⟩
  subst hvc
  rcases mem_pyCapitalize v c hc with ⟨d, hd, hcd | hcd⟩
  · subst hcd
    rw [beq_dash_pyToUpper]
    exact mem_pySplitP_sep_free _ w v hv d hd
  · subst hcd
    rw [beq_dash_pyToLower]
    exact mem_pySplitP_sep_free _ w v hv d hd

theorem fix_part_fix_part (w : Str) : fix_part (fix_part w) = fix_part w := by
  unfold fix_part
  rw [pySplitP_pyJoin (· == '-') '-' _ (by decide) (fix_part_dash_free_pieces w)
    (by simp [pySplitP_ne_nil])]
  rw [List.map_map]
  refine congrArg _ (List.map_congr_left fun u _ => ?_)
  exact pyCapitalize_pyCapitalize u

theorem fix_part_map_pyToLower (w : Str) :
    fix_part (w.map pyToLower) = fix_part w := by
  unfold fix_part
  have hsplit : pySplitP (· == '-') (w.map pyToLower)
      = (pySplitP (· == '-') w).map (List.map pyToLower) := by
    induction w with
    | nil => rfl
    | cons c cs ih =>
      simp only [List.map_cons, pySplitP_cons, beq_dash_pyToLower]
      split
      · simp [ih]
      · cases hsp : pySplitP (· == '-') cs with
        | nil => exact absurd hsp (pySplitP_ne_nil _ cs)
        | cons u us => rw [hsp] at ih; simp [ih]
  rw [hsplit, List.map_map]
  refine congrArg _ (List.map_congr_left fun u _ => ?_)
  exact pyCapitalize_map_pyToLower u

theorem dropWhile_map_comm (p : Char → Bool) (f : Char → Char) (l : Str)
    (h : ∀ c, p (f c) = p c) :
    (l.map f).dropWhile p = (l.dropWhile p).map f := by
  induction l with
  | nil => rfl
  | cons c cs ih =>
    simp only [List.map_cons, List.dropWhile_cons, h c]
    split <;> simp [ih]

theorem pyStrip_map_comm (f : Char → Char) (s : Str)
    (h : ∀ c, pyIsSpace (f c) = pyIsSpace c) :
    pyStrip (s.map f) = (pyStrip s).map f := by
  unfold pyStrip
  rw [dropWhile_map_comm _ f s h, ← List.map_reverse, dropWhile_map_comm _ f _ h,
    ← List.map_reverse]

theorem pySplitP_map_comm (p : Char → Bool) (f : Char → Char) (l : Str)
    (h : ∀ c, p (f c) = p c) :
    pySplitP p (l.map f) = (pySplitP p l).map (List.map f) := by
  induction l with
  | nil => rfl
  | cons c cs ih =>
    simp only [List.map_cons, pySplitP_cons, h c]
    split
    · simp [ih]
    · cases hsp : pySplitP p cs with
      | nil => exact absurd hsp (pySplitP_ne_nil p cs)
      | cons u us => rw [hsp] at ih; simp [ih]

theorem pySplitWs_map_pyToLower (s : Str) :
    pySplitWs (s.map pyToLower) = (pySplitWs s).map (List.map pyToLower) := by
  unfold pySplitWs
  rw [pySplitP_map_comm pyIsSpace pyToLower s pyIsSpace_pyToLower, List.filter_map]
  refine congrArg _ (List.filter_congr fun w _ => ?_)
  simp only [Function.comp_apply]
  cases w <;> rfl

theorem mem_pySplitWs_ne_nil (s : Str) (w : Str) (hw : w ∈ pySplitWs s) : w ≠ [] := by
  unfold pySplitWs at hw
  have := List.of_mem_filter hw
  simpa using this

theorem mem_pySplitWs_space_free (s : Str) (w : Str) (hw : w ∈ pySplitWs s) :
    ∀ c ∈ w, pyIsSpace c = false := by
  unfold pySplitWs at hw
  exact mem_pySplitP_sep_free pyIsSpace s w (List.mem_of_mem_filter hw)

theorem pyJoin_first_decomp (sep : Str) (w : Str) (ws : List Str) :
    ∃ t, pyJoin sep (w :: ws) = w ++ t := by
  cases ws with
  | nil => exact ⟨[], by simp [pyJoin]⟩
  | cons w2 ws2 => exact ⟨sep ++ pyJoin sep (w2 :: ws2), by simp [pyJoin]⟩

theorem pyJoin_last_decomp (sep : Str) (ws : List Str) (w : Str) :
    ∃ t, pyJoin sep (ws ++ [w]) = t ++ w := by
  induction ws with
  | nil => exact ⟨[], by simp [pyJoin]⟩
  | cons u us ih =>
    rcases ih with ⟨t, ht⟩
    cases hus : us ++ [w] with
    | nil => simp at hus
    | cons v vs =>
      refine ⟨u ++ sep ++ t, ?_⟩
      have : pyJoin sep (u :: (us ++ [w])) = u ++ sep ++ pyJoin sep (us ++ [w]) := by
        rw [hus]; simp [pyJoin]
      simp [this, ht]

theorem pyStrip_eq_self_of_ends (o : Str) (c1 c2 : Char) (t1 t2 : Str)
    (h1 : o = c1 :: t1) (h2 : o = t2 ++ [c2])
    (hc1 : pyIsSpace c1 = false) (hc2 : pyIsSpace c2 = false) :
    pyStrip o = o := by
  unfold pyStrip
  have hd : o.dropWhile pyIsSpace = o := by
    rw [h1, List.dropWhile_cons, hc1]
    simp
  rw [hd]
  have hrev : o.reverse = c2 :: t2.reverse := by
    rw [h2, List.reverse_append]
    simp
  rw [hrev, List.dropWhile_cons, hc2]
  simp [← hrev]

/-- Key shared lemma: normalize_name applied to lowercased input gives the
same result as on the original input (ASCII case-insensitivity of the
normalizer). -/
theorem normalize_name_map_pyToLower (x : Str) :
    normalize_name (x.map pyToLower) = normalize_name x := by
  unfold normalize_name
  rw [pyStrip_map_comm pyToLower x pyIsSpace_pyToLower, pySplitWs_map_pyToLower,
    List.map_map]
  refine congrArg _ (List.map_congr_left fun w _ => ?_)
  exact fix_part_map_pyToLower w

/-- Helper: normalize_name fixes a join of nonempty, whitespace-free words
that are themselves fixed by fix_part. -/
theorem normalize_name_fixes_join (ws2 : List Str) (hne : ws2 ≠ [])
    (hall : ∀ w ∈ ws2, w ≠ [] ∧ ∀ c ∈ w, pyIsSpace c = false)
    (hfix : ws2.map fix_part = ws2) :
    normalize_name (pyJoin [' '] ws2) = pyJoin [' '] ws2 := by
  have hstrip : pyStrip (pyJoin [' '] ws2) = pyJoin [' '] ws2 := by
    obtain ⟨w1, rest, hcase⟩ : ∃ w1 rest, ws2 = w1 :: rest := by
      cases hc : ws2 with
      | nil => exact absurd hc hne
      | cons a as => exact ⟨a, as, rfl⟩
    subst hcase
    obtain ⟨tf, htf⟩ := pyJoin_first_decomp [' '] w1 rest
    have hw1 := hall w1 (by simp)
    obtain ⟨c1, t1, hct⟩ : ∃ c t, w1 = c :: t := by
      cases hw1e : w1 with
      | nil => exact absurd hw1e hw1.1
      | cons a as => exact ⟨a, as, rfl⟩
    rcases List.eq_nil_or_concat (w1 :: rest) with habs | ⟨init, wl, hinit⟩
    · simp at habs
    · have hwl : wl ∈ w1 :: rest := by
        rw [hinit, List.concat_eq_append]
        simp
      have hwlp := hall wl hwl
      rcases List.eq_nil_or_concat wl with habs | ⟨t2i, c2, ht2⟩
      · exact absurd habs hwlp.1
      · rw [List.concat_eq_append] at hinit ht2
        obtain ⟨tl, htl⟩ := pyJoin_last_decomp [' '] init wl
        refine pyStrip_eq_self_of_ends (pyJoin [' '] (w1 :: rest)) c1 c2 (t1 ++ tf)
          (tl ++ t2i) ?_ ?_ ?_ ?_
        · rw [htf, hct]
          simp
        · rw [hinit, htl, ht2]
          simp
        · exact hw1.2 c1 (by rw [hct]; simp)
        · exact hwlp.2 c2 (by rw [ht2]; simp)
  have hsplit : pySplitWs (pyJoin [' '] ws2) = ws2 := by
    unfold pySplitWs
    rw [pySplitP_pyJoin pyIsSpace ' ' ws2 (by decide) (fun w hw => (hall w hw).2) hne]
    rw [List.filter_eq_self]
    intro w hw
    have := (hall w hw).1
    simpa using this
  unfold normalize_name
  rw [hstrip, hsplit, hfix]

/-- Key shared lemma: normalize_name is idempotent. -/
theorem normalize_name_idem (x : Str) :
    normalize_name (normalize_name x) = normalize_name x := by
  rcases hws : (pySplitWs (pyStrip x)).map fix_part with _ | ⟨w1, rest⟩
  · have hx : normalize_name x = [] := by
      unfold normalize_name
      rw [hws]
      rfl
    rw [hx]
    rfl
  · have hox : normalize_name x = pyJoin [' '] (w1 :: rest) := by
      unfold normalize_name
      rw [hws]
    rw [hox]
    refine normalize_name_fixes_join (w1 :: rest) (by simp) ?_ ?_
    · intro w hw
      rw [← hws] at hw
      rcases List.mem_map.mp hw with ⟨u, hu, huw⟩
      subst huw
      exact ⟨fix_part_ne_nil u (mem_pySplitWs_ne_nil _ u hu),
        fix_part_space_free u (mem_pySplitWs_space_free _ u hu)⟩
    · rw [← hws, List.map_map]
      refine List.map_congr_left fun u _ => ?_
      exact fix_part_fix_part u

/-- Key shared lemma: two fixed points of normalize_name that agree after
lowercasing are equal. -/
theorem normalize_name_fixpoint_lower_inj (k1 k2 : Str)
    (h1 : normalize_name k1 = k1) (h2 : normalize_name k2 = k2)
    (hl : lowerStr k1 = lowerStr k2) : k1 = k2 := by
  have e1 : normalize_name (lowerStr k1) = k1 := by
    rw [lowerStr, normalize_name_map_pyToLower, h1]
  have e2 : normalize_name (lowerStr k2) = k2 := by
    rw [lowerStr, normalize_name_map_pyToLower, h2]
  rw [← e1, ← e2, hl]

/-! ## Dates (embedding of datetime.date as used by the program) -/

/-- Embedding of `datetime.date`: a year/month/day triple.  Validity
(1 ≤ year ≤ 9999, real calendar day) is checked by `isValidDate`, as the
`datetime.date` constructor does. -/
structure PyDate where
  year : Nat
  month : Nat
  day : Nat
deriving DecidableEq, Repr

/-- Gregorian leap-year test. -/
def isLeap (y : Nat) : Bool := (y % 4 == 0 && y % 100 != 0) || y % 400 == 0

/-- Number of days of a month (month 1..12) in a given year. -/
def daysInMonth (y m : Nat) : Nat :=
  if m = 2 then (if isLeap y then 29 else 28)
  else if m = 4 ∨ m = 6 ∨ m = 9 ∨ m = 11 then 30
  else 31

/-- Validity check of the `datetime.date` constructor: year within 1..9999
(MINYEAR..MAXYEAR), real month and day. -/
def isValidDate (d : PyDate) : Bool :=
  1 ≤ d.year && d.year ≤ 9999 && 1 ≤ d.month && d.month ≤ 12 &&
    1 ≤ d.day && d.day ≤ daysInMonth d.year d.month

/-- Embedding of Python date comparison `a < b`: lexicographic on
(year, month, day), which is how `datetime.date` compares. -/
def dateLtB (a b : PyDate) : Bool :=
  a.year < b.year ||
    (a.year == b.year && (a.month < b.month ||
      (a.month == b.month && a.day < b.day)))

/-- Embedding of Python date comparison `a <= b`. -/
def dateLeB (a b : PyDate) : Bool := a == b || dateLtB a b

/-- Embedding of `date.replace(year=y)`: same month and day with a new year;
fails (ValueError) when the resulting date is invalid, e.g. Feb 29 of a
non-leap year or a year outside 1..9999. -/
def replaceYear (d : PyDate) (y : Nat) : Option PyDate :=
  if isValidDate ⟨y, d.month, d.day⟩ then some ⟨y, d.month, d.day⟩ else none

/-- Days before the first of a month within one year. -/
def daysBeforeMonth (y m : Nat) : Nat :=
  (if m = 2 then 31 else if m = 3 then 59 else if m = 4 then 90
   else if m = 5 then 120 else if m = 6 then 151 else if m = 7 then 181
   else if m = 8 then 212 else if m = 9 then 243 else if m = 10 then 273
   else if m = 11 then 304 else if m = 12 then 334 else 0)
  + (if 3 ≤ m ∧ isLeap y then 1 else 0)

/-- Proleptic Gregorian ordinal of a date, as in `date.toordinal()`:
0001-01-01 is day 1. -/
def toOrdinal (d : PyDate) : Nat :=
  365 * (d.year - 1) + (d.year - 1) / 4 - (d.year - 1) / 100 + (d.year - 1) / 400
    + daysBeforeMonth d.year d.month + d.day

/-- Embedding of `date.weekday()`: Monday is 0, Sunday is 6. -/
def pyWeekday (d : PyDate) : Nat := (toOrdinal d + 6) % 7

/-- Successor day in the Gregorian calendar. -/
def nextDay (d : PyDate) : PyDate :=
  if d.day < daysInMonth d.year d.month then ⟨d.year, d.month, d.day + 1⟩
  else if d.month < 12 then ⟨d.year, d.month + 1, 1⟩
  else ⟨d.year + 1, 1, 1⟩

/-- Successor-day iteration: the date n days after d, with no upper bound.
This is only the arithmetic core; the embedding of Python's
`d + timedelta(days=n)` is `pyAddDays`, which fails past `date.max` as
Python does. -/
def addDays (n : Nat) (d : PyDate) : PyDate :=
  match n with
  | 0 => d
  | n + 1 => addDays n (nextDay d)

/-- Embedding of `d + timedelta(days=n)` for a nonnegative n: Python
raises OverflowError when the result would exceed `date.max`, which is
9999-12-31; none models that OverflowError. -/
def pyAddDays (n : Nat) (d : PyDate) : Option PyDate :=
  if dateLeB (addDays n d) ⟨9999, 12, 31⟩ then some (addDays n d) else none

/-! ## Field validators (embedding of Phone and Birthday construction) -/

/-- Embedding of the Phone constructor (src lines 26-29): succeeds iff the
value is all digits (`str.isdigit`) and has length 10; the stored value is
the string itself.  Returns none where Python raises ValueError. -/
def Phone.init (value : Str) : Option Str :=
  if !(pyIsDigitStr value) ∨ value.length ≠ 10 then none
  else some value

/-- Parsing of one day field of `strptime` with format `%d`: the CPython
pattern is `3[01]|[12]\d|0[1-9]|[1-9]| [1-9]`, i.e. one nonzero digit, a
space followed by a nonzero digit, or two digits with value 1..31. -/
def parseDayField (f : Str) : Option Nat :=
  match f with
  | [c] => if 49 ≤ c.toNat ∧ c.toNat ≤ 57 then some (c.toNat - 48) else none
  | [c1, c2] =>
    if c1 = ' ' then
      if 49 ≤ c2.toNat ∧ c2.toNat ≤ 57 then some (c2.toNat - 48) else none
    else
      if pyIsDigit c1 ∧ pyIsDigit c2 then
        let v := 10 * (c1.toNat - 48) + (c2.toNat - 48)
        if 1 ≤ v ∧ v ≤ 31 then some v else none
      else none
  | _ => none

/-- Parsing of one month field of `strptime` with format `%m`: the CPython
pattern is `1[0-2]|0[1-9]|[1-9]`, i.e. one nonzero digit or two digits with
value 1..12. -/
def parseMonthField (f : Str) : Option Nat :=
  match f with
  | [c] => if 49 ≤ c.toNat ∧ c.toNat ≤ 57 then some (c.toNat - 48) else none
  | [c1, c2] =>
    if pyIsDigit c1 ∧ pyIsDigit c2 then
      let v := 10 * (c1.toNat - 48) + (c2.toNat - 48)
      if 1 ≤ v ∧ v ≤ 12 then some v else none
    else none
  | _ => none

/-- Parsing of the year field of `strptime` with format `%Y`: exactly four
digits (CPython pattern `\d\d\d\d`). -/
def parseYearField (f : Str) : Option Nat :=
  match f with
  | [c1, c2, c3, c4] =>
    if pyIsDigit c1 ∧ pyIsDigit c2 ∧ pyIsDigit c3 ∧ pyIsDigit c4 then
      some (1000 * (c1.toNat - 48) + 100 * (c2.toNat - 48)
        + 10 * (c3.toNat - 48) + (c4.toNat - 48))
    else none
  | _ => none

/-- Embedding of `datetime.strptime(value, "%d.%m.%Y").date()`: the format
regex is the day, month and year patterns joined by literal dots and must
match the whole string; since none of the field patterns can contain a dot,
this is equivalent to splitting on dots into exactly three fields and
matching each.  The resulting triple is then validated by the date
constructor.  Returns none where Python raises ValueError. -/
def strptimeDate (value : Str) : Option PyDate :=
  match pySplitP (· == '.') value with
  | [f1, f2, f3] =>
    match parseDayField f1, parseMonthField f2, parseYearField f3 with
    | some d, some m, some y =>
      if isValidDate ⟨y, m, d⟩ then some ⟨y, m, d⟩ else none
    | _, _, _ => none
  | _ => none

/-- Embedding of the Birthday constructor (src lines 34-43): parse with
format `%d.%m.%Y`, reject dates after today, store the original string.
The current date is passed explicitly.  Returns none where Python raises
ValueError. -/
def Birthday.init (value : Str) (today : PyDate) : Option Str :=
  match strptimeDate value with
  | none => none
  | some bd => if dateLtB today bd then none else some value

/-! ## Contact records (embedding of class Record) -/

/-- Embedding of a Record: a name, the list of phone values (each stored
Phone wraps just its string value), and an optional birthday string. -/
structure Record where
  name : Str
  phones : List Str
  birthday : Option Str
deriving DecidableEq, Repr

/-- Embedding of Record.find_phone: first phone with the given value. -/
def Record.find_phone (r : Record) (phone : Str) : Option Str :=
  r.phones.find? (fun p => p == phone)

/-- Embedding of Record.add_phone: no-op returning false if the value is
already present or invalid, otherwise append and return true. -/
def Record.add_phone (r : Record) (phone : Str) : Record × Bool :=
  match r.find_phone phone with
  | some _ => (r, false)
  | none =>
    match Phone.init phone with
    | none => (r, false)
    | some p => ({ r with phones := r.phones ++ [p] }, true)

/-- Embedding of Record.remove_phone: remove the first phone with the given
value if present. -/
def Record.remove_phone (r : Record) (phone : Str) : Record × Bool :=
  match r.find_phone phone with
  | some _ => ({ r with phones := r.phones.erase phone }, true)
  | none => (r, false)

/-- Embedding of Record.edit_phone (src lines 72-81): if the old value is
found, the matching Phone object is removed from the list FIRST, and only
then is the new Phone constructed; a ValueError from that construction is
caught and false returned, at which point the removal has already happened. -/
def Record.edit_phone (r : Record) (old_phone new_phone : Str) : Record × Bool :=
  match r.find_phone old_phone with
  | none => (r, false)
  | some _ =>
    let removed : Record := { r with phones := r.phones.erase old_phone }
    match Phone.init new_phone with
    | none => (removed, false)
    | some p => ({ removed with phones := removed.phones ++ [p] }, true)

/-- Embedding of Record.__str__ rendering. -/
def Record.render (r : Record) : Str :=
  r.name ++ (':' :: ' ' :: pyJoin [';', ' '] r.phones) ++
    (match r.birthday with
     | some b => (',' :: ' ' :: ('B' :: 'i' :: 'r' :: 't' :: 'h' :: 'd' :: 'a' :: 'y' :: ':' :: ' ' :: b))
     | none => [])

/-! ## Address book (embedding of class AddressBook) -/

/-- Embedding of the AddressBook dict `self.data`: an association list of
(key, record) in insertion order. -/
abbrev Book := List (Str × Record)

/-- Embedding of a Python dict update `self.data[k] = v`: replace the value
of an existing key in place, else append a new entry. -/
def dictInsert (book : Book) (k : Str) (v : Record) : Book :=
  match book with
  | [] => [(k, v)]
  | (k1, v1) :: rest =>
    if k1 = k then (k1, v) :: rest else (k1, v1) :: dictInsert rest k v

/-- Embedding of AddressBook.add_record (src lines 112-113):
`self.data[record.name.value] = record`. -/
def AddressBook.add_record (book : Book) (r : Record) : Book :=
  dictInsert book r.name r

/-- Embedding of AddressBook.find (src lines 116-121): first record whose
key equals the query after lowercasing both. -/
def AddressBook.find (book : Book) (name : Str) : Option Record :=
  (book.find? (fun kv => lowerStr kv.1 == lowerStr name)).map Prod.snd

/-- Embedding of AddressBook.name_exists (src lines 124-125). -/
def AddressBook.name_exists (book : Book) (name : Str) : Bool :=
  book.any (fun kv => lowerStr name == lowerStr kv.1)

/-- Embedding of AddressBook.delete (src lines 128-133): remove the first
case-insensitive match, if any. -/
def AddressBook.delete (book : Book) (name : Str) : Book :=
  match book with
  | [] => []
  | kv :: rest =>
    if lowerStr kv.1 == lowerStr name then rest
    else kv :: AddressBook.delete rest name

/-- Embedding of AddressBook.search (src lines 136-144): lowercase the
query once; a record matches when its lowercased name starts with the
lowered query or some phone value contains the lowered query as a
substring; matches are rendered in iteration order. -/
def AddressBook.search (book : Book) (query : Str) : List Str :=
  let q := lowerStr query
  ((book.map Prod.snd).filter
    (fun r => q.isPrefixOf (lowerStr r.name) || r.phones.any (fun p => pyContains p q))).map
    Record.render

/-- Shift of a congratulation date off the weekend (src lines 163-168):
Saturday (weekday 5) moves 2 days to Monday, Sunday (weekday 6) moves
1 day to Monday.  The raw `addDays` is faithful here: this shift cannot
overflow `date.max` for any in-range input, because 9999-12-30 and
9999-12-31 fall on a Thursday and a Friday, so the latest in-range
Saturday and Sunday are 9999-12-25 and 9999-12-26, whose shifted Monday
is 9999-12-27. -/
def rollForwardWeekend (d : PyDate) : PyDate :=
  if pyWeekday d == 5 then addDays 2 d
  else if pyWeekday d == 6 then addDays 1 d
  else d

/-- Decimal digits of a number, zero-padded to two places, as `strftime`
prints `%d` and `%m`. -/
def pad2 (n : Nat) : Str :=
  if n < 10 then '0' :: Nat.toDigits 10 n else Nat.toDigits 10 n

/-- Rendering of a date as `strftime("%d.%m.%Y")` does. -/
def formatDate (d : PyDate) : Str :=
  pad2 d.day ++ ('.' :: pad2 d.month) ++ ('.' :: Nat.toDigits 10 d.year)

/-- One iteration of the loop body of AddressBook.get_upcoming_birthdays
(src lines 152-172) for a single record: none when the record is skipped
(no birthday, a re-parse failure, a ValueError from `replace`, or out of
window), otherwise the rendered entry.  The `try/except ValueError` of the
source catches the failures of `strptime` and of both `replace` calls.
The window bound `end_date` is the one computed before the loop (src
line 149) and is passed in by the caller. -/
def upcomingEntry (today end_date : PyDate) (r : Record) : Option Str :=
  match r.birthday with
  | none => none
  | some s =>
    match strptimeDate s with
    | none => none
    | some bd =>
      match replaceYear bd today.year with
      | none => none
      | some bty =>
        match (if dateLtB bty today then replaceYear bd (today.year + 1) else some bty) with
        | none => none
        | some b2 =>
          if dateLeB today b2 && dateLeB b2 end_date then
            some (r.name ++ (':' :: ' ' :: formatDate (rollForwardWeekend b2)))
          else none

/-- Embedding of AddressBook.get_upcoming_birthdays (src lines 147-174):
`end_date = today + timedelta(days=7)` is computed eagerly on line 149,
OUTSIDE the try block of the loop, so when it overflows `date.max`
(today on or after 9999-12-25) the OverflowError escapes the method
uncaught; a none result models that uncaught error.  Otherwise the
entries are collected over the records in iteration order. -/
def AddressBook.get_upcoming_birthdays (book : Book) (today : PyDate) :
    Option (List Str) :=
  match pyAddDays 7 today with
  | none => none
  | some end_date => some ((book.map Prod.snd).filterMap (upcomingEntry today end_date))

/-! ## Command handlers (embedding of the book-mutating handlers) -/

/-- Loop of add_contact over the phone tokens (src lines 258-263): each
token is added with Record.add_phone; a false result (duplicate or invalid)
aborts the handler with a message, before the record reaches the book.
In the source, add_phone itself catches the ValueError of the Phone
constructor, so the except branch of the handler is unreachable. -/
def addPhonesLoop (r : Record) : List Str → Option Record
  | [] => some r
  | phone :: rest =>
    match r.add_phone phone with
    | (r2, true) => addPhonesLoop r2 rest
    | (_, false) => none

/-- Embedding of the add_contact handler (src lines 231-266), book effect:
locate the first 10-digit token, normalize the name tokens before it,
refuse when the (case-insensitive) name already exists, build the record
phone by phone, and insert it.  Each early `return`/`raise` of the source
leaves the book unchanged. -/
def add_contact (args : List Str) (book : Book) : Book :=
  if args.length < 2 then book
  else
    match args.findIdx? (fun a => pyIsDigitStr a && a.length == 10) with
    | none => book
    | some i =>
      let name_parts := args.take i
      if name_parts.isEmpty then book
      else
        let name := normalize_name (pyJoin [' '] name_parts)
        if AddressBook.name_exists book name then book
        else
          match addPhonesLoop ⟨name, [], none⟩ (args.drop i) with
          | none => book
          | some record => AddressBook.add_record book record

/-- Loop of edit_contact_name over the split position (src lines 275-282):
the first index i ≥ 1 whose normalized prefix is an existing name wins;
the remaining tokens give the new name. -/
def editNameSplit (args : List Str) (book : Book) (i : Nat) : Option (Str × Str) :=
  if i < args.length then
    let old_name_try := normalize_name (pyJoin [' '] (args.take i))
    if AddressBook.name_exists book old_name_try then
      some (old_name_try, normalize_name (pyJoin [' '] (args.drop i)))
    else editNameSplit args book (i + 1)
  else none
termination_by args.length - i

/-- Embedding of the edit_contact_name handler (src lines 270-289), book
effect: find the split, look the old record up, delete it, rename it and
re-insert it. -/
def edit_contact_name (args : List Str) (book : Book) : Book :=
  if args.length < 2 then book
  else
    match editNameSplit args book 1 with
    | none => book
    | some (old_name, new_name) =>
      match AddressBook.find book old_name with
      | none => book
      | some record =>
        AddressBook.add_record (AddressBook.delete book old_name)
          { record with name := new_name }

/-- Embedding of the remove_contact handler (src lines 362-371), book
effect: delete the normalized name (case-insensitively); a failed delete
leaves the book unchanged. -/
def remove_contact (args : List Str) (book : Book) : Book :=
  if args.isEmpty then book
  else AddressBook.delete book (normalize_name (pyJoin [' '] args))

/-- In-place update of the stored records: joint embedding, for the
key-uniqueness analysis, of the handlers that mutate a found record
without touching the dict keys (change_contact, add_phone_to_contact,
remove_phone, add_birthday, edit_birthday, remove_birthday).  Allowing an
arbitrary per-key update over-approximates all of them. -/
def updateRecords (f : Str → Record → Record) (book : Book) : Book :=
  book.map (fun kv => (kv.1, f kv.1 kv.2))

/-- Repository states reachable through the command handlers, starting from
the empty book. -/
inductive Reachable : Book → Prop
  | empty : Reachable []
  | addC (args : List Str) (b : Book) : Reachable b → Reachable (add_contact args b)
  | editN (args : List Str) (b : Book) : Reachable b → Reachable (edit_contact_name args b)
  | removeC (args : List Str) (b : Book) : Reachable b → Reachable (remove_contact args b)
  | update (f : Str → Record → Record) (b : Book) :
      Reachable b → Reachable (updateRecords f b)

/-! ## Key invariant of reachable books -/

/-- The invariant maintained by the handlers: every stored key is a fixed
point of normalize_name, and the lowercased keys are pairwise distinct. -/
def GoodBook (b : Book) : Prop :=
  (∀ kv ∈ b, normalize_name kv.1 = kv.1) ∧
    (b.map (fun kv => lowerStr kv.1)).Nodup

theorem dictInsert_key_cases (b : Book) (k : Str) (v : Record) :
    ∀ kv ∈ dictInsert b k v, kv.1 = k ∨ kv ∈ b := by
  induction b with
  | nil => simp [dictInsert]
  | cons hd rest ih =>
    intro kv hkv
    unfold dictInsert at hkv
    by_cases hk : hd.1 = k
    · rw [if_pos hk] at hkv
      rcases List.mem_cons.mp hkv with h | h
      · left; rw [h, hk]
      · right; exact List.mem_cons_of_mem hd h
    · rw [if_neg hk] at hkv
      rcases List.mem_cons.mp hkv with h | h
      · right; rw [h]; simp
      · rcases ih kv h with h2 | h2
        · left; exact h2
        · right; exact List.mem_cons_of_mem hd h2

theorem dictInsert_fst_of_mem (b : Book) (k : Str) (v : Record)
    (hmem : ∃ kv ∈ b, kv.1 = k) :
    (dictInsert b k v).map Prod.fst = b.map Prod.fst := by
  induction b with
  | nil =>
    rcases hmem with ⟨kv, hkv, _⟩
    cases hkv
  | cons hd rest ih =>
    unfold dictInsert
    by_cases hk : hd.1 = k
    · rw [if_pos hk]
      simp [hk]
    · rw [if_neg hk]
      simp only [List.map_cons, List.cons.injEq, true_and]
      apply ih
      rcases hmem with ⟨kv, hkv, hkvk⟩
      rcases List.mem_cons.mp hkv with h | h
      · exact absurd (by rw [← h]; exact hkvk) hk
      · exact ⟨kv, h, hkvk⟩

theorem dictInsert_of_not_mem (b : Book) (k : Str) (v : Record)
    (habs : ∀ kv ∈ b, kv.1 ≠ k) :
    dictInsert b k v = b ++ [(k, v)] := by
  induction b with
  | nil => rfl
  | cons hd rest ih =>
    unfold dictInsert
    rw [if_neg (habs hd (by simp))]
    rw [ih (fun kv hkv => habs kv (List.mem_cons_of_mem hd hkv))]
    rfl

theorem good_add_record (b : Book) (r : Record) (hb : GoodBook b)
    (hn : normalize_name r.name = r.name) :
    GoodBook (AddressBook.add_record b r) := by
  unfold AddressBook.add_record
  constructor
  · intro kv hkv
    rcases dictInsert_key_cases b r.name r kv hkv with h | h
    · rw [h]; exact hn
    · exact hb.1 kv h
  · by_cases hmem : ∃ kv ∈ b, kv.1 = r.name
    · have : (dictInsert b r.name r).map (fun kv => lowerStr kv.1)
          = b.map (fun kv => lowerStr kv.1) := by
        have h1 := dictInsert_fst_of_mem b r.name r hmem
        have e1 : (dictInsert b r.name r).map (fun kv => lowerStr kv.1)
            = ((dictInsert b r.name r).map Prod.fst).map lowerStr := by
          rw [List.map_map]; rfl
        have e2 : b.map (fun kv => lowerStr kv.1)
            = (b.map Prod.fst).map lowerStr := by
          rw [List.map_map]; rfl
        rw [e1, e2, h1]
      rw [this]
      exact hb.2
    · push_neg at hmem
      rw [dictInsert_of_not_mem b r.name r hmem]
      rw [List.map_append]
      apply List.Nodup.append hb.2 (by simp)
      intro x hx hy
      simp only [List.map_cons, List.map_nil, List.mem_singleton] at hy
      rcases List.mem_map.mp hx with ⟨kv, hkv, hkvx⟩
      have hkeq : kv.1 = r.name :=
        normalize_name_fixpoint_lower_inj kv.1 r.name (hb.1 kv hkv) hn
          (by rw [← hkvx] at hy; exact hy)
      exact hmem kv hkv hkeq

theorem delete_sublist (b : Book) (name : Str) :
    (AddressBook.delete b name).Sublist b := by
  induction b with
  | nil => simp [AddressBook.delete]
  | cons hd rest ih =>
    unfold AddressBook.delete
    split
    · exact List.sublist_cons_self hd rest
    · exact List.Sublist.cons₂ hd ih

theorem good_delete (b : Book) (name : Str) (hb : GoodBook b) :
    GoodBook (AddressBook.delete b name) := by
  have hsub := delete_sublist b name
  exact ⟨fun kv hkv => hb.1 kv (hsub.subset hkv),
    hb.2.sublist (hsub.map (fun kv => lowerStr kv.1))⟩

theorem good_add_contact (args : List Str) (b : Book) (hb : GoodBook b) :
    GoodBook (add_contact args b) := by
  unfold add_contact
  split
  · exact hb
  · split
    · exact hb
    · next i _ =>
      dsimp only
      split
      · exact hb
      · split
        · exact hb
        · cases hloop : addPhonesLoop
            ⟨normalize_name (pyJoin [' '] (args.take i)), [], none⟩ (args.drop i) with
          | none => exact hb
          | some record =>
            have hname : record.name = normalize_name (pyJoin [' '] (args.take i)) := by
              have aux : ∀ (ph : List Str) (r : Record) (r2 : Record),
                  addPhonesLoop r ph = some r2 → r2.name = r.name := by
                intro ph
                induction ph with
                | nil => intro r r2 h; simp [addPhonesLoop] at h; rw [← h]
                | cons p rest ih =>
                  intro r r2 h
                  unfold addPhonesLoop at h
                  rcases hadd : r.add_phone p with ⟨r3, ok⟩
                  rw [hadd] at h
                  cases ok with
                  | false => simp at h
                  | true =>
                    have : r3.name = r.name := by
                      unfold Record.add_phone at hadd
                      rcases hfp : r.find_phone p with _ | q
                      · rw [hfp] at hadd
                        rcases hpi : Phone.init p with _ | q2
                        · rw [hpi] at hadd; simp at hadd
                        · rw [hpi] at hadd
                          simp only [Prod.mk.injEq] at hadd
                          rw [← hadd.1]
                      · rw [hfp] at hadd
                        simp only [Prod.mk.injEq] at hadd
                        rw [← hadd.1]
                    rw [ih r3 r2 h, this]
              exact aux (args.drop i) _ record hloop
            apply good_add_record b record hb
            rw [hname]
            exact normalize_name_idem _

theorem editNameSplit_new_normal (args : List Str) (b : Book) (i : Nat)
    (old_name new_name : Str)
    (h : editNameSplit args b i = some (old_name, new_name)) :
    normalize_name new_name = new_name := by
  have main : ∀ (k j : Nat), args.length - j ≤ k →
      editNameSplit args b j = some (old_name, new_name) →
      normalize_name new_name = new_name := by
    intro k
    induction k with
    | zero =>
      intro j hle h2
      unfold editNameSplit at h2
      dsimp only at h2
      split at h2
      · next hlt => omega
      · cases h2
    | succ k ih =>
      intro j hle h2
      unfold editNameSplit at h2
      dsimp only at h2
      split at h2
      · next hlt =>
        split at h2
        · simp only [Option.some.injEq, Prod.mk.injEq] at h2
          rw [← h2.2]
          exact normalize_name_idem _
        · exact ih (j + 1) (by omega) h2
      · cases h2
  exact main (args.length - i) i (Nat.le_refl _) h

theorem good_edit_contact_name (args : List Str) (b : Book) (hb : GoodBook b) :
    GoodBook (edit_contact_name args b) := by
  unfold edit_contact_name
  split
  · exact hb
  · cases hsp : editNameSplit args b 1 with
    | none => exact hb
    | some pair =>
      rcases pair with ⟨old_name, new_name⟩
      dsimp only
      cases hf : AddressBook.find b old_name with
      | none => exact hb
      | some record =>
        dsimp only
        apply good_add_record _ _ (good_delete b old_name hb)
        exact editNameSplit_new_normal args b 1 old_name new_name hsp

theorem good_remove_contact (args : List Str) (b : Book) (hb : GoodBook b) :
    GoodBook (remove_contact args b) := by
  unfold remove_contact
  split
  · exact hb
  · exact good_delete b _ hb

theorem good_updateRecords (f : Str → Record → Record) (b : Book) (hb : GoodBook b) :
    GoodBook (updateRecords f b) := by
  constructor
  · intro kv hkv
    rcases List.mem_map.mp hkv with ⟨kv0, hkv0, hkveq⟩
    rw [← hkveq]
    exact hb.1 kv0 hkv0
  · have : (updateRecords f b).map (fun kv => lowerStr kv.1)
        = b.map (fun kv => lowerStr kv.1) := by
      unfold updateRecords
      rw [List.map_map]
      rfl
    rw [this]
    exact hb.2

/-- The invariant holds of every reachable book. -/
theorem reachable_goodBook (b : Book) (h : Reachable b) : GoodBook b := by
  induction h with
  | empty => exact ⟨by simp, by simp⟩
  | addC args b _ ih => exact good_add_contact args b ih
  | editN args b _ ih => exact good_edit_contact_name args b ih
  | removeC args b _ ih => exact good_remove_contact args b ih
  | update f b _ ih => exact good_updateRecords f b ih

/-! ## Claim theorems -/

theorem char_le_toNat_left (c : Char) : ('0' ≤ c) ↔ 48 ≤ c.toNat := by
  rw [Char.le_def]
  exact Iff.intro (fun h => h) (fun h => h)

theorem char_le_toNat_right (c : Char) : (c ≤ '9') ↔ c.toNat ≤ 57 := by
  rw [Char.le_def]
  exact Iff.intro (fun h => h) (fun h => h)

/-- C8: normalize_name is idempotent: for every string x,
normalize_name (normalize_name x) equals normalize_name x. -/
theorem C8_normalize_name_idempotent (x : Str) :
    normalize_name (normalize_name x) = normalize_name x :=
  normalize_name_idem x

/-- C9: normalize_name trims outer whitespace, splits on internal whitespace
into words, splits each word on dashes into subparts, capitalizes each
subpart, rejoins subparts with dashes and words with single spaces; in
particular "jean-paul  DUPONT" normalizes to "Jean-Paul Dupont". -/
theorem C9_normalize_name_algorithm :
    (∀ raw : Str,
      normalize_name raw =
        pyJoin [' ']
          ((pySplitWs (pyStrip raw)).map
            (fun w => pyJoin ['-'] ((pySplitP (fun c => c == '-') w).map pyCapitalize)))) ∧
    normalize_name ("jean-paul  DUPONT".toList) = "Jean-Paul Dupont".toList := by
  exact ⟨fun raw => rfl, by decide⟩

/-- C3: phone validation succeeds iff the string consists of exactly 10
characters, all of them decimal digits, and the constructed value is the
string itself; any other string is rejected. -/
theorem C3_phone_validation (s : Str) :
    ((Phone.init s).isSome = true ↔
      s.length = 10 ∧ ∀ c ∈ s, '0' ≤ c ∧ c ≤ '9') ∧
    ∀ p, Phone.init s = some p → p = s := by
  constructor
  · unfold Phone.init
    constructor
    · intro h
      split at h
      · simp at h
      · next hcond =>
        push_neg at hcond
        obtain ⟨hdig, hlen⟩ := hcond
        have hdig2 : pyIsDigitStr s = true := by simpa using hdig
        unfold pyIsDigitStr at hdig2
        rw [Bool.and_eq_true, List.all_eq_true] at hdig2
        refine ⟨hlen, fun c hc => ?_⟩
        have := hdig2.2 c hc
        unfold pyIsDigit at this
        rw [Bool.and_eq_true, decide_eq_true_eq, decide_eq_true_eq] at this
        exact ⟨(char_le_toNat_left c).mpr this.1, (char_le_toNat_right c).mpr this.2⟩
    · intro ⟨hlen, hdig⟩
      have hds : pyIsDigitStr s = true := by
        unfold pyIsDigitStr
        rw [Bool.and_eq_true, List.all_eq_true]
        constructor
        · rw [Bool.not_eq_true']
          cases s with
          | nil => simp at hlen
          | cons a as => rfl
        · intro c hc
          unfold pyIsDigit
          rw [Bool.and_eq_true, decide_eq_true_eq, decide_eq_true_eq]
          exact ⟨(char_le_toNat_left c).mp (hdig c hc).1,
            (char_le_toNat_right c).mp (hdig c hc).2⟩
      have hcond : ¬((!pyIsDigitStr s) = true ∨ s.length ≠ 10) := by
        rw [hds]
        simp [hlen]
      rw [if_neg hcond]
      rfl
  · intro p hp
    unfold Phone.init at hp
    split at hp
    · cases hp
    · simp only [Option.some.injEq] at hp
      exact hp.symm

/-- C3 witness: the theorem applied at the all-digit string 0123456789. -/
theorem C3_phone_validation_witness :
    (Phone.init ("0123456789".toList)).isSome = true :=
  (C3_phone_validation ("0123456789".toList)).1.mpr (by decide)

theorem parseDayField_dot_free (f : Str) (d : Nat) (h : parseDayField f = some d) :
    ∀ c ∈ f, (c == '.') = false := by
  rcases f with _ | ⟨c1, _ | ⟨c2, _ | ⟨c3, rest⟩⟩⟩
  · replace h : (none : Option Nat) = some d := h
    cases h
  · intro e he
    simp only [List.mem_singleton] at he
    subst he
    rw [char_beq_eq_toNat, show ('.').toNat = 46 from rfl, decide_eq_false_iff_not]
    replace h : (if 49 ≤ e.toNat ∧ e.toNat ≤ 57
        then some (e.toNat - 48) else none) = some d := h
    split at h
    · next hr => omega
    · cases h
  · intro e he
    rw [char_beq_eq_toNat, show ('.').toNat = 46 from rfl, decide_eq_false_iff_not]
    replace h : (if c1 = ' ' then
        (if 49 ≤ c2.toNat ∧ c2.toNat ≤ 57 then some (c2.toNat - 48) else none)
      else if pyIsDigit c1 ∧ pyIsDigit c2 then
        (if 1 ≤ 10 * (c1.toNat - 48) + (c2.toNat - 48) ∧
            10 * (c1.toNat - 48) + (c2.toNat - 48) ≤ 31
         then some (10 * (c1.toNat - 48) + (c2.toNat - 48)) else none)
      else none) = some d := h
    by_cases hsp : c1 = ' '
    · rw [if_pos hsp] at h
      split at h
      · next hr =>
        rcases List.mem_cons.mp he with h2 | h2
        · subst h2
          rw [hsp]
          decide
        · simp only [List.mem_singleton] at h2
          subst h2
          omega
      · cases h
    · rw [if_neg hsp] at h
      split at h
      · next hdig =>
        obtain ⟨hd1, hd2⟩ := hdig
        unfold pyIsDigit at hd1 hd2
        rw [Bool.and_eq_true, decide_eq_true_eq, decide_eq_true_eq] at hd1 hd2
        rcases List.mem_cons.mp he with h2 | h2
        · subst h2; omega
        · simp only [List.mem_singleton] at h2
          subst h2
          omega
      · cases h
  · replace h : (none : Option Nat) = some d := h
    cases h

theorem parseMonthField_dot_free (f : Str) (m : Nat) (h : parseMonthField f = some m) :
    ∀ c ∈ f, (c == '.') = false := by
  rcases f with _ | ⟨c1, _ | ⟨c2, _ | ⟨c3, rest⟩⟩⟩
  · replace h : (none : Option Nat) = some m := h
    cases h
  · intro e he
    simp only [List.mem_singleton] at he
    subst he
    rw [char_beq_eq_toNat, show ('.').toNat = 46 from rfl, decide_eq_false_iff_not]
    replace h : (if 49 ≤ e.toNat ∧ e.toNat ≤ 57
        then some (e.toNat - 48) else none) = some m := h
    split at h
    · next hr => omega
    · cases h
  · intro e he
    rw [char_beq_eq_toNat, show ('.').toNat = 46 from rfl, decide_eq_false_iff_not]
    replace h : (if pyIsDigit c1 ∧ pyIsDigit c2 then
        (if 1 ≤ 10 * (c1.toNat - 48) + (c2.toNat - 48) ∧
            10 * (c1.toNat - 48) + (c2.toNat - 48) ≤ 12
         then some (10 * (c1.toNat - 48) + (c2.toNat - 48)) else none)
      else none) = some m := h
    split at h
    · next hdig =>
      obtain ⟨hd1, hd2⟩ := hdig
      unfold pyIsDigit at hd1 hd2
      rw [Bool.and_eq_true, decide_eq_true_eq, decide_eq_true_eq] at hd1 hd2
      rcases List.mem_cons.mp he with h2 | h2
      · subst h2; omega
      · simp only [List.mem_singleton] at h2
        subst h2
        omega
    · cases h
  · replace h : (none : Option Nat) = some m := h
    cases h

theorem parseYearField_dot_free (f : Str) (y : Nat) (h : parseYearField f = some y) :
    ∀ c ∈ f, (c == '.') = false := by
  rcases f with _ | ⟨c1, _ | ⟨c2, _ | ⟨c3, _ | ⟨c4, _ | ⟨c5, rest⟩⟩⟩⟩⟩
  · replace h : (none : Option Nat) = some y := h
    cases h
  · replace h : (none : Option Nat) = some y := h
    cases h
  · replace h : (none : Option Nat) = some y := h
    cases h
  · replace h : (none : Option Nat) = some y := h
    cases h
  · intro e he
    rw [char_beq_eq_toNat, show ('.').toNat = 46 from rfl, decide_eq_false_iff_not]
    replace h : (if pyIsDigit c1 ∧ pyIsDigit c2 ∧ pyIsDigit c3 ∧ pyIsDigit c4 then
        some (1000 * (c1.toNat - 48) + 100 * (c2.toNat - 48)
          + 10 * (c3.toNat - 48) + (c4.toNat - 48))
      else none) = some y := h
    split at h
    · next hdig =>
      obtain ⟨hd1, hd2, hd3, hd4⟩ := hdig
      unfold pyIsDigit at hd1 hd2 hd3 hd4
      rw [Bool.and_eq_true, decide_eq_true_eq, decide_eq_true_eq] at hd1 hd2 hd3 hd4
      rcases List.mem_cons.mp he with h2 | h2
      · subst h2; omega
      rcases List.mem_cons.mp h2 with h3 | h3
      · subst h3; omega
      rcases List.mem_cons.mp h3 with h4 | h4
      · subst h4; omega
      simp only [List.mem_singleton] at h4
      subst h4
      omega
    · cases h
  · replace h : (none : Option Nat) = some y := h
    cases h

/-- C4 counterexample: the claim says Birthday construction succeeds only
for strings matching DD.MM.YYYY exactly, but the constructor accepts
"1.1.2000" (with today = 2024-06-10), whose length is 8 rather than the 10
of any DD.MM.YYYY string: `strptime` accepts unpadded day and month
fields. -/
theorem C4_counterexample :
    Birthday.init ("1.1.2000".toList) ⟨2024, 6, 10⟩ = some ("1.1.2000".toList) ∧
    ("1.1.2000".toList).length ≠ 10 := by
  exact ⟨by decide, by decide⟩

/-- C4 amended: Birthday construction succeeds iff the string splits at
dots into three fields day.month.year accepted by the lenient strptime
patterns (day: one nonzero digit, a space then a nonzero digit, or two
digits valued 1..31; month: one nonzero digit or two digits valued 1..12;
year: exactly four digits), the triple is a real calendar date with year
at least 1, and the date is not after today; the stored value is the
original string. -/
theorem C4_amended (s : Str) (today : PyDate) :
    ((Birthday.init s today).isSome = true ↔
      ∃ f1 f2 f3 d m y,
        s = f1 ++ '.' :: (f2 ++ '.' :: f3) ∧
        parseDayField f1 = some d ∧ parseMonthField f2 = some m ∧
        parseYearField f3 = some y ∧
        isValidDate ⟨y, m, d⟩ = true ∧ dateLtB today ⟨y, m, d⟩ = false) ∧
    ∀ v, Birthday.init s today = some v → v = s := by
  have hjoin3 : ∀ f1 f2 f3 : Str,
      pyJoin ['.'] [f1, f2, f3] = f1 ++ '.' :: (f2 ++ '.' :: f3) := by
    intro f1 f2 f3
    simp [pyJoin]
  constructor
  · constructor
    · intro h
      unfold Birthday.init at h
      cases hsd : strptimeDate s with
      | none => rw [hsd] at h; simp at h
      | some bd =>
        rw [hsd] at h
        dsimp only at h
        unfold strptimeDate at hsd
        cases hsp : pySplitP (fun c => c == '.') s with
        | nil => exact absurd hsp (pySplitP_ne_nil _ s)
        | cons f1 fs =>
          rw [hsp] at hsd
          match fs with
          | [] => exact Option.noConfusion hsd
          | [f2] => exact Option.noConfusion hsd
          | [f2, f3] =>
            dsimp only at hsd
            cases hd : parseDayField f1 with
            | none =>
              rw [hd] at hsd
              exact Option.noConfusion hsd
            | some d =>
              cases hm : parseMonthField f2 with
              | none =>
                rw [hd, hm] at hsd
                exact Option.noConfusion hsd
              | some m =>
                cases hy : parseYearField f3 with
                | none =>
                  rw [hd, hm, hy] at hsd
                  exact Option.noConfusion hsd
                | some y =>
                  rw [hd, hm, hy] at hsd
                  dsimp only at hsd
                  by_cases hvalid : isValidDate ⟨y, m, d⟩ = true
                  · rw [if_pos hvalid] at hsd
                    simp only [Option.some.injEq] at hsd
                    refine ⟨f1, f2, f3, d, m, y, ?_, hd, hm, hy, hvalid, ?_⟩
                    · have hrec := pyJoin_pySplitP (fun c => c == '.') '.' s
                        (fun c => by rw [beq_iff_eq])
                      rw [hsp, hjoin3] at hrec
                      exact hrec.symm
                    · split at h
                      · cases h
                      · next hlt =>
                        rw [hsd]
                        simpa using hlt
                  · rw [if_neg hvalid] at hsd
                    exact Option.noConfusion hsd
          | f2 :: f3 :: f4 :: rest => exact Option.noConfusion hsd
    · rintro ⟨f1, f2, f3, d, m, y, hs, hd, hm, hy, hvalid, hlt⟩
      unfold Birthday.init
      have hsplit : pySplitP (fun c => c == '.') s = [f1, f2, f3] := by
        rw [hs]
        rw [pySplitP_append_sep _ f1 _ '.' (by decide) (parseDayField_dot_free f1 d hd)]
        rw [pySplitP_append_sep _ f2 _ '.' (by decide) (parseMonthField_dot_free f2 m hm)]
        rw [pySplitP_sep_free_eq _ f3 (parseYearField_dot_free f3 y hy)]
      unfold strptimeDate
      rw [hsplit]
      dsimp only
      rw [hd, hm, hy]
      dsimp only
      rw [if_pos hvalid]
      dsimp only
      rw [hlt]
      simp
  · intro v hv
    unfold Birthday.init at hv
    cases hsd : strptimeDate s with
    | none => rw [hsd] at hv; cases hv
    | some bd =>
      rw [hsd] at hv
      dsimp only at hv
      split at hv
      · cases hv
      · simp only [Option.some.injEq] at hv
        exact hv.symm

/-- C4 amended witness: the theorem applied at "05.06.1990" with
today = 2024-06-10. -/
theorem C4_amended_witness :
    (Birthday.init ("05.06.1990".toList) ⟨2024, 6, 10⟩).isSome = true :=
  (C4_amended ("05.06.1990".toList) ⟨2024, 6, 10⟩).1.mpr
    ⟨"05".toList, "06".toList, "1990".toList, 5, 6, 1990,
      by decide, by decide, by decide, by decide, by decide, by decide⟩

/-- C1 counterexample: on a record with phones ["1111111111"], editing that
phone to the invalid value "222" returns false, yet the phone list has
changed (it is now empty): the source removes the old Phone object before
constructing the new one, so the failure return is not atomic. -/
theorem C1_counterexample :
    (Record.edit_phone ⟨"A".toList, ["1111111111".toList], none⟩
        ("1111111111".toList) ("222".toList)).2 = false ∧
    (Record.edit_phone ⟨"A".toList, ["1111111111".toList], none⟩
        ("1111111111".toList) ("222".toList)).1.phones ≠
      [("1111111111".toList)] := by
  exact ⟨by decide, by decide⟩

/-- C1 amended: edit_phone returns false if the old value is absent (the
list is then unchanged) or the new value fails validation; when the old
value is present and the new one is valid it removes the first occurrence
of the old value, appends the new one and returns true; but when the old
value is present and the new one is invalid, the false return leaves the
record with the old value already removed (remove-then-append is not
atomic).  The spec scenario holds: with phones ["1111111111"], the edit to
"2222222222" succeeds, after which the old value is gone and the new one
is found. -/
theorem C1_amended (r : Record) (old_phone new_phone : Str) :
    (r.find_phone old_phone = none →
      r.edit_phone old_phone new_phone = (r, false)) ∧
    (r.find_phone old_phone ≠ none → Phone.init new_phone = none →
      r.edit_phone old_phone new_phone =
        ({ r with phones := r.phones.erase old_phone }, false)) ∧
    (∀ p, r.find_phone old_phone ≠ none → Phone.init new_phone = some p →
      r.edit_phone old_phone new_phone =
        ({ r with phones := r.phones.erase old_phone ++ [p] }, true)) ∧
    (r.phones = ["1111111111".toList] →
      ((r.edit_phone ("1111111111".toList) ("2222222222".toList)).2 = true ∧
       (r.edit_phone ("1111111111".toList)
            ("2222222222".toList)).1.find_phone ("1111111111".toList) = none ∧
       (r.edit_phone ("1111111111".toList)
            ("2222222222".toList)).1.find_phone ("2222222222".toList) =
          some ("2222222222".toList))) := by
  refine ⟨?_, ?_, ?_, ?_⟩
  · intro h
    unfold Record.edit_phone
    rw [h]
  · intro h hp
    unfold Record.edit_phone
    cases hf : r.find_phone old_phone with
    | none => exact absurd hf h
    | some q =>
      rw [hp]
  · intro p h hp
    unfold Record.edit_phone
    cases hf : r.find_phone old_phone with
    | none => exact absurd hf h
    | some q =>
      rw [hp]
  · intro hph
    have hfind : r.find_phone ("1111111111".toList) = some ("1111111111".toList) := by
      unfold Record.find_phone
      rw [hph]
      rfl
    unfold Record.edit_phone
    rw [hfind, show Phone.init ("2222222222".toList) =
      some ("2222222222".toList) from by decide]
    dsimp only
    rw [hph]
    refine ⟨rfl, ?_, ?_⟩ <;> {
      unfold Record.find_phone
      dsimp only
      rfl
    }

/-- C1 amended witness: the theorem applied on the scenario record. -/
theorem C1_amended_witness :
    (Record.edit_phone ⟨"B".toList, ["1111111111".toList], none⟩
      ("1111111111".toList) ("2222222222".toList)).2 = true :=
  ((C1_amended ⟨"B".toList, ["1111111111".toList], none⟩
    ("1111111111".toList) ("2222222222".toList)).2.2.2 rfl).1

theorem dictInsert_eq_map_of_mem (book : Book) (k : Str) (v : Record)
    (hkeys : (book.map Prod.fst).Nodup) (hmem : ∃ kv ∈ book, kv.1 = k) :
    dictInsert book k v =
      book.map (fun kv => if kv.1 = k then (kv.1, v) else kv) := by
  induction book with
  | nil =>
    rcases hmem with ⟨kv, hkv, _⟩
    cases hkv
  | cons hd rest ih =>
    unfold dictInsert
    by_cases hk : hd.1 = k
    · rw [if_pos hk]
      simp only [List.map_cons, if_pos hk]
      have hrest : rest.map (fun kv => if kv.1 = k then (kv.1, v) else kv) = rest := by
        have hnotin : ∀ kv ∈ rest, kv.1 ≠ k := by
          intro kv hkv hkvk
          have : hd.1 ∈ rest.map Prod.fst := by
            rw [hk, ← hkvk]
            exact List.mem_map_of_mem Prod.fst hkv
          rw [List.map_cons] at hkeys
          exact (List.nodup_cons.mp hkeys).1 this
        have h1 : rest.map (fun kv => if kv.1 = k then (kv.1, v) else kv) = rest.map id :=
          List.map_congr_left (fun kv hkv => by rw [if_neg (hnotin kv hkv)]; rfl)
        rw [h1, List.map_id]
      rw [hrest]
    · rw [if_neg hk]
      simp only [List.map_cons, if_neg hk, List.cons.injEq, true_and]
      apply ih
      · rw [List.map_cons] at hkeys
        exact (List.nodup_cons.mp hkeys).2
      · rcases hmem with ⟨kv, hkv, hkvk⟩
        rcases List.mem_cons.mp hkv with h | h
        · exact absurd (by rw [← h]; exact hkvk) hk
        · exact ⟨kv, h, hkvk⟩

theorem find_mem_values (book : Book) (q : Str) (v : Record)
    (h : AddressBook.find book q = some v) : ∃ kv ∈ book, kv.2 = v := by
  unfold AddressBook.find at h
  cases hf : book.find? (fun kv => lowerStr kv.1 == lowerStr q) with
  | none => rw [hf] at h; cases h
  | some kv =>
    rw [hf] at h
    rw [Option.map_some'] at h
    exact ⟨kv, List.mem_of_find?_eq_some hf, Option.some.inj h⟩

/-- C10: inserting a record whose name equals an existing key
character-for-character silently replaces the stored record: the book
keeps its length, the key sequence (hence the insertion position) is
unchanged, and the previously stored record can no longer be retrieved by
find under any query. -/
theorem C10_add_record_replaces (book : Book) (r r_old : Record) (n : Str)
    (hkeys : (book.map Prod.fst).Nodup)
    (hmem : (n, r_old) ∈ book) (hname : r.name = n)
    (huniq : ∀ kv ∈ book, kv.2 = r_old → kv.1 = n) (hne : r ≠ r_old) :
    (AddressBook.add_record book r).length = book.length ∧
    (AddressBook.add_record book r).map Prod.fst = book.map Prod.fst ∧
    ∀ q, AddressBook.find (AddressBook.add_record book r) q ≠ some r_old := by
  have hex : ∃ kv ∈ book, kv.1 = r.name := ⟨(n, r_old), hmem, by rw [hname]⟩
  have heq : AddressBook.add_record book r =
      book.map (fun kv => if kv.1 = r.name then (kv.1, r) else kv) :=
    dictInsert_eq_map_of_mem book r.name r hkeys hex
  refine ⟨?_, ?_, ?_⟩
  · rw [heq, List.length_map]
  · rw [heq, List.map_map]
    refine List.map_congr_left fun kv _ => ?_
    simp only [Function.comp_apply]
    split <;> rfl
  · intro q hfind
    rcases find_mem_values _ q r_old hfind with ⟨kv, hkv, hkvv⟩
    rw [heq] at hkv
    rcases List.mem_map.mp hkv with ⟨kv0, hkv0, hkv0e⟩
    by_cases hk : kv0.1 = r.name
    · rw [if_pos hk] at hkv0e
      rw [← hkv0e] at hkvv
      exact hne hkvv
    · rw [if_neg hk] at hkv0e
      rw [hkv0e] at hkv0
      exact hk (by rw [hkv0e, hname]; exact huniq kv hkv0 hkvv)

/-- C10 witness: the theorem applied on a one-record book keyed "A". -/
theorem C10_add_record_replaces_witness :
    (AddressBook.add_record [("A".toList, ⟨"A".toList, [], none⟩)]
      ⟨"A".toList, ["1234567890".toList], none⟩).length = 1 :=
  (C10_add_record_replaces [("A".toList, ⟨"A".toList, [], none⟩)]
    ⟨"A".toList, ["1234567890".toList], none⟩ ⟨"A".toList, [], none⟩ ("A".toList)
    (by decide) (by decide) rfl (by decide) (by decide)).1

theorem list_any_congr (l : List Str) (p q : Str → Bool)
    (h : ∀ a ∈ l, p a = q a) : l.any p = l.any q := by
  induction l with
  | nil => rfl
  | cons a as ih =>
    simp only [List.any_cons]
    rw [h a (by simp), ih (fun b hb => h b (List.mem_cons_of_mem a hb))]

theorem pyContains_chars (hay needle : Str) (h : pyContains hay needle = true) :
    ∀ c ∈ needle, c ∈ hay := by
  unfold pyContains at h
  rw [List.any_eq_true] at h
  rcases h with ⟨t, ht, hpre⟩
  have hsuf : t <:+ hay := (List.mem_tails t hay).mp ht
  have hp : needle <+: t := List.isPrefixOf_iff_prefix.mp hpre
  exact fun c hc => hsuf.subset (hp.subset hc)

theorem pyContains_lowerStr_eq (hay q : Str)
    (hdig : ∀ c ∈ hay, pyIsDigit c = true) :
    pyContains hay (lowerStr q) = pyContains hay q := by
  by_cases hq : ∀ c ∈ q, pyToLower c = c
  · have hlq : lowerStr q = q := by
      unfold lowerStr
      have h1 : q.map pyToLower = q.map id := List.map_congr_left (fun c hc => hq c hc)
      rw [h1, List.map_id]
    rw [hlq]
  · push_neg at hq
    obtain ⟨c, hc, hcne⟩ := hq
    have hcr : 65 ≤ c.toNat ∧ c.toNat ≤ 90 := by
      by_contra hcon
      exact hcne (by unfold pyToLower; rw [if_neg hcon])
    have h1 : pyContains hay q = false := by
      rw [Bool.eq_false_iff]
      intro htrue
      have hmem := pyContains_chars hay q htrue c hc
      have hd := hdig c hmem
      unfold pyIsDigit at hd
      rw [Bool.and_eq_true, decide_eq_true_eq, decide_eq_true_eq] at hd
      omega
    have h2 : pyContains hay (lowerStr q) = false := by
      rw [Bool.eq_false_iff]
      intro htrue
      have hcl : pyToLower c ∈ lowerStr q := List.mem_map_of_mem pyToLower hc
      have hmem := pyContains_chars hay (lowerStr q) htrue (pyToLower c) hcl
      have hd := hdig _ hmem
      unfold pyIsDigit at hd
      rw [Bool.and_eq_true, decide_eq_true_eq, decide_eq_true_eq, toNat_pyToLower,
        if_pos hcr] at hd
      omega
    rw [h1, h2]

/-- C6: search returns exactly the rendered forms, in repository iteration
order, of the records whose name starts with the query under
case-insensitive comparison or one of whose (all-digit) phone values
contains the query as a substring; and on the two-record scenario,
search "lee" returns exactly the entry for "Lee Park". -/
theorem C6_search (book : Book) (query : Str)
    (hdig : ∀ kv ∈ book, ∀ p ∈ kv.2.phones, ∀ c ∈ p, pyIsDigit c = true) :
    (AddressBook.search book query =
      ((book.map Prod.snd).filter
        (fun r => (lowerStr query).isPrefixOf (lowerStr r.name)
          || r.phones.any (fun p => pyContains p query))).map Record.render) ∧
    AddressBook.search
      [("Anna Lee".toList, ⟨"Anna Lee".toList, ["1112223333".toList], none⟩),
       ("Lee Park".toList, ⟨"Lee Park".toList, ["4445556666".toList], none⟩)]
      ("lee".toList) = ["Lee Park: 4445556666".toList] := by
  constructor
  · unfold AddressBook.search
    dsimp only
    congr 1
    apply List.filter_congr
    intro r hr
    rcases List.mem_map.mp hr with ⟨kv, hkv, hkve⟩
    have hdr : ∀ p ∈ r.phones, ∀ c ∈ p, pyIsDigit c = true := by
      rw [← hkve]
      exact hdig kv hkv
    have hph : r.phones.any (fun p => pyContains p (lowerStr query))
        = r.phones.any (fun p => pyContains p query) :=
      list_any_congr r.phones _ _
        (fun p hp => pyContains_lowerStr_eq p query (hdr p hp))
    rw [hph]
  · decide

/-- C6 witness: the theorem instantiated on the scenario book. -/
theorem C6_search_witness :
    AddressBook.search
      [("Anna Lee".toList, ⟨"Anna Lee".toList, ["1112223333".toList], none⟩),
       ("Lee Park".toList, ⟨"Lee Park".toList, ["4445556666".toList], none⟩)]
      ("lee".toList) = ["Lee Park: 4445556666".toList] :=
  (C6_search
    [("Anna Lee".toList, ⟨"Anna Lee".toList, ["1112223333".toList], none⟩),
     ("Lee Park".toList, ⟨"Lee Park".toList, ["4445556666".toList], none⟩)]
    ("lee".toList) (by decide)).2

theorem isValidDate_iff (dd : PyDate) :
    isValidDate dd = true ↔
      1 ≤ dd.year ∧ dd.year ≤ 9999 ∧ 1 ≤ dd.month ∧ dd.month ≤ 12 ∧
        1 ≤ dd.day ∧ dd.day ≤ daysInMonth dd.year dd.month := by
  unfold isValidDate
  simp only [Bool.and_eq_true, decide_eq_true_eq]
  tauto

theorem daysInMonth_feb (y : Nat) :
    daysInMonth y 2 = if isLeap y then 29 else 28 := by
  unfold daysInMonth
  rw [if_pos rfl]

theorem daysInMonth_not_feb (y y2 m : Nat) (hm : m ≠ 2) :
    daysInMonth y m = daysInMonth y2 m := by
  unfold daysInMonth
  rw [if_neg hm, if_neg hm]

theorem strptimeDate_valid (s : Str) (bd : PyDate) (h : strptimeDate s = some bd) :
    isValidDate bd = true := by
  unfold strptimeDate at h
  cases hsp : pySplitP (fun c => c == '.') s with
  | nil => rw [hsp] at h; exact Option.noConfusion h
  | cons f1 fs =>
    rw [hsp] at h
    match fs with
    | [] => exact Option.noConfusion h
    | [f2] => exact Option.noConfusion h
    | [f2, f3] =>
      dsimp only at h
      cases hd : parseDayField f1 with
      | none => rw [hd] at h; exact Option.noConfusion h
      | some d =>
        cases hm : parseMonthField f2 with
        | none => rw [hd, hm] at h; exact Option.noConfusion h
        | some m =>
          cases hy : parseYearField f3 with
          | none => rw [hd, hm, hy] at h; exact Option.noConfusion h
          | some y =>
            rw [hd, hm, hy] at h
            dsimp only at h
            by_cases hv : isValidDate ⟨y, m, d⟩ = true
            · rw [if_pos hv] at h
              rw [← Option.some.inj h]
              exact hv
            · rw [if_neg hv] at h
              exact Option.noConfusion h
    | f2 :: f3 :: f4 :: rest => exact Option.noConfusion h

theorem replaceYear_some (bd : PyDate) (y2 : Nat) (hv : isValidDate bd = true)
    (hfeb : ¬(bd.month = 2 ∧ bd.day = 29)) (hy : 1 ≤ y2 ∧ y2 ≤ 9999) :
    replaceYear bd y2 = some ⟨y2, bd.month, bd.day⟩ := by
  rw [isValidDate_iff] at hv
  obtain ⟨h1, h2, h3, h4, h5, h6⟩ := hv
  have hcond : isValidDate ⟨y2, bd.month, bd.day⟩ = true := by
    rw [isValidDate_iff]
    refine ⟨hy.1, hy.2, h3, h4, h5, ?_⟩
    show bd.day ≤ daysInMonth y2 bd.month
    by_cases hm : bd.month = 2
    · have hd29 : bd.day ≠ 29 := fun hd => hfeb ⟨hm, hd⟩
      rw [hm] at h6 ⊢
      rw [daysInMonth_feb] at h6 ⊢
      split_ifs at h6 ⊢ <;> omega
    · rw [daysInMonth_not_feb y2 bd.year bd.month hm]
      exact h6
  unfold replaceYear
  rw [if_pos hcond]

theorem addDays_january (n : Nat) : ∀ (y k : Nat), 1 ≤ k → k + n ≤ 31 →
    addDays n ⟨y, 1, k⟩ = ⟨y, 1, k + n⟩ := by
  induction n with
  | zero =>
    intro y k h1 h2
    rfl
  | succ n ih =>
    intro y k h1 h2
    show addDays n (nextDay ⟨y, 1, k⟩) = _
    have h31 : daysInMonth y 1 = 31 := rfl
    have hnd : nextDay ⟨y, 1, k⟩ = ⟨y, 1, k + 1⟩ := by
      unfold nextDay
      dsimp only
      rw [if_pos (by omega)]
    rw [hnd, ih y (k + 1) (by omega) (by omega),
      show k + 1 + n = k + (n + 1) from by omega]

theorem addDays_year_bound : ∀ (n : Nat), n ≤ 31 → ∀ d : PyDate,
    (addDays n d).year ≤ d.year + 1 ∧
      ((addDays n d).year = d.year + 1 →
        (addDays n d).month = 1 ∧ (addDays n d).day ≤ n) := by
  intro n
  induction n with
  | zero =>
    intro _ d
    refine ⟨by show d.year ≤ d.year + 1; omega, fun h => ?_⟩
    have h2 : d.year = d.year + 1 := h
    exact absurd h2 (by omega)
  | succ n ih =>
    intro hn d
    have hstep : addDays (n + 1) d = addDays n (nextDay d) := rfl
    rw [hstep]
    by_cases h1 : d.day < daysInMonth d.year d.month
    · have hnd : nextDay d = ⟨d.year, d.month, d.day + 1⟩ := by
        unfold nextDay
        rw [if_pos h1]
      rw [hnd]
      have h := ih (by omega) ⟨d.year, d.month, d.day + 1⟩
      dsimp only at h
      exact ⟨h.1, fun he => ⟨(h.2 he).1, by have h3 := (h.2 he).2; omega⟩⟩
    · by_cases h2 : d.month < 12
      · have hnd : nextDay d = ⟨d.year, d.month + 1, 1⟩ := by
          unfold nextDay
          rw [if_neg h1, if_pos h2]
        rw [hnd]
        have h := ih (by omega) ⟨d.year, d.month + 1, 1⟩
        dsimp only at h
        exact ⟨h.1, fun he => ⟨(h.2 he).1, by have h3 := (h.2 he).2; omega⟩⟩
      · have hnd : nextDay d = ⟨d.year + 1, 1, 1⟩ := by
          unfold nextDay
          rw [if_neg h1, if_neg h2]
        rw [hnd, addDays_january n (d.year + 1) 1 (by omega) (by omega)]
        dsimp only
        exact ⟨by omega, fun _ => ⟨rfl, by omega⟩⟩

theorem dateLeB_true_of (a b : PyDate)
    (h : a.year < b.year ∨ (a.year = b.year ∧
      (a.month < b.month ∨ (a.month = b.month ∧ a.day ≤ b.day)))) :
    dateLeB a b = true := by
  cases a with
  | mk ya ma da =>
    cases b with
    | mk yb mb db =>
      unfold dateLeB dateLtB
      dsimp only at h ⊢
      simp only [Bool.or_eq_true, Bool.and_eq_true, decide_eq_true_eq, beq_iff_eq,
        PyDate.mk.injEq]
      omega

theorem addDays7_le_max (today : PyDate) (h : today.year + 1 ≤ 9999) :
    dateLeB (addDays 7 today) ⟨9999, 12, 31⟩ = true := by
  have hb := addDays_year_bound 7 (by omega) today
  apply dateLeB_true_of
  dsimp only
  by_cases hy : (addDays 7 today).year = today.year + 1
  · rcases Nat.lt_or_ge (addDays 7 today).year 9999 with h9 | h9
    · exact Or.inl h9
    · have h99 : (addDays 7 today).year = 9999 := by omega
      refine Or.inr ⟨h99, Or.inl ?_⟩
      have hm := (hb.2 hy).1
      omega
  · exact Or.inl (by have := hb.1; omega)

theorem pyAddDays_seven (today : PyDate) (h : today.year + 1 ≤ 9999) :
    pyAddDays 7 today = some (addDays 7 today) := by
  unfold pyAddDays
  rw [if_pos (addDays7_le_max today h)]

/-- C2: a record whose stored birthday parses to a date with day-month
(m, d) other than Feb 29 is reported by the scheduler exactly when the
next occurrence of (m, d) (the year set to today.year, bumped to
today.year + 1 when that date is before today) lies in the inclusive
window [today, today + 7 days]; the reported entry carries that occurrence
shifted forward 2 days when it falls on weekday 5 (Saturday) and 1 day on
weekday 6 (Sunday), the window test being applied before the shift.
Under the stated year bound the eager end_date computation of line 149
succeeds, with end_date = today + 7 days.  In particular, with today =
2024-06-10, a June-15 birthday is reported on 2024-06-17 and a June-20
birthday is omitted. -/
theorem C2_upcoming_birthdays (r : Record) (s : Str) (today bd occ : PyDate)
    (hb : r.birthday = some s) (hparse : strptimeDate s = some bd)
    (hfeb : ¬(bd.month = 2 ∧ bd.day = 29))
    (htoday : 1 ≤ today.year ∧ today.year + 1 ≤ 9999)
    (hocc : occ = if dateLtB ⟨today.year, bd.month, bd.day⟩ today
        then ⟨today.year + 1, bd.month, bd.day⟩
        else ⟨today.year, bd.month, bd.day⟩) :
    pyAddDays 7 today = some (addDays 7 today) ∧
    ((upcomingEntry today (addDays 7 today) r).isSome
        = (dateLeB today occ && dateLeB occ (addDays 7 today))) ∧
    (∀ e, upcomingEntry today (addDays 7 today) r = some e →
      e = r.name ++ (':' :: ' ' :: formatDate
        (if pyWeekday occ = 5 then addDays 2 occ
         else if pyWeekday occ = 6 then addDays 1 occ else occ))) ∧
    AddressBook.get_upcoming_birthdays
      [("Alice".toList, ⟨"Alice".toList, [], some ("15.06.1996".toList)⟩)]
      ⟨2024, 6, 10⟩ = some ["Alice: 17.06.2024".toList] ∧
    AddressBook.get_upcoming_birthdays
      [("Bob".toList, ⟨"Bob".toList, [], some ("20.06.1996".toList)⟩)]
      ⟨2024, 6, 10⟩ = some [] := by
  have hv := strptimeDate_valid s bd hparse
  have hr1 : replaceYear bd today.year = some ⟨today.year, bd.month, bd.day⟩ :=
    replaceYear_some bd today.year hv hfeb ⟨htoday.1, by omega⟩
  have hr2 : replaceYear bd (today.year + 1) = some ⟨today.year + 1, bd.month, bd.day⟩ :=
    replaceYear_some bd (today.year + 1) hv hfeb ⟨by omega, htoday.2⟩
  have hentry : upcomingEntry today (addDays 7 today) r =
      (if (dateLeB today occ && dateLeB occ (addDays 7 today)) = true then
        some (r.name ++ (':' :: ' ' :: formatDate (rollForwardWeekend occ)))
      else none) := by
    unfold upcomingEntry
    rw [hb]
    dsimp only
    rw [hparse]
    dsimp only
    rw [hr1]
    dsimp only
    by_cases hlt : dateLtB ⟨today.year, bd.month, bd.day⟩ today = true
    · rw [if_pos hlt, hr2]
      dsimp only
      rw [hocc, if_pos hlt]
    · rw [if_neg hlt]
      dsimp only
      rw [hocc, if_neg hlt]
  have hroll : rollForwardWeekend occ =
      (if pyWeekday occ = 5 then addDays 2 occ
       else if pyWeekday occ = 6 then addDays 1 occ else occ) := by
    unfold rollForwardWeekend
    simp only [beq_iff_eq]
  refine ⟨pyAddDays_seven today htoday.2, ?_, ?_, by decide, by decide⟩
  · rw [hentry]
    by_cases hw : (dateLeB today occ && dateLeB occ (addDays 7 today)) = true
    · rw [if_pos hw, hw]
      rfl
    · rw [if_neg hw]
      exact (Bool.eq_false_iff.mpr hw).symm
  · intro e he
    rw [hentry] at he
    by_cases hw : (dateLeB today occ && dateLeB occ (addDays 7 today)) = true
    · rw [if_pos hw] at he
      rw [← Option.some.inj he, hroll]
    · rw [if_neg hw] at he
      exact Option.noConfusion he

/-- C2 witness: the theorem applied to the June-15 scenario record. -/
theorem C2_upcoming_birthdays_witness :
    (upcomingEntry ⟨2024, 6, 10⟩ (addDays 7 ⟨2024, 6, 10⟩)
      ⟨"Alice".toList, [], some ("15.06.1996".toList)⟩).isSome = true := by
  have h := (C2_upcoming_birthdays ⟨"Alice".toList, [], some ("15.06.1996".toList)⟩
    ("15.06.1996".toList) ⟨2024, 6, 10⟩ ⟨1996, 6, 15⟩ ⟨2024, 6, 15⟩ rfl (by decide)
    (by decide) (by decide) (by decide)).2.1
  rw [h]
  decide

/-- C7 counterexample: the claim quantifies over every current date in a
non-leap year, but at today = 9999-12-28 (the year 9999 is not a leap
year) the source raises an uncaught error instead of skipping the Feb-29
record: `end_date = today + timedelta(days=7)` on line 149 is evaluated
eagerly, OUTSIDE the try block, and overflows `date.max` = 9999-12-31,
raising an OverflowError that no except clause catches (the loop catches
only ValueError); the call returns no sequence at all, and no record —
including the second one, whose Dec-30 birthday would otherwise be in
the window — is processed.  The none result models that uncaught error. -/
theorem C7_counterexample :
    isLeap 9999 = false ∧
    AddressBook.get_upcoming_birthdays
      [("L".toList, ⟨"L".toList, [], some ("29.02.1996".toList)⟩),
       ("D".toList, ⟨"D".toList, [], some ("30.12.1990".toList)⟩)]
      ⟨9999, 12, 28⟩ = none := by
  exact ⟨by decide, by decide⟩

/-- C7 amended: provided today + 7 days is representable (at most
9999-12-31, Python's date.max — otherwise the eager end_date computation
of line 149 raises an uncaught OverflowError before any record is
processed), a record whose stored birthday is Feb 29 is skipped without
an uncaught error when the current year is not a leap year: the
ValueError raised by `date.replace` is caught by the loop's except
clause, the record contributes no entry, and the entries of all other
records are unaffected. -/
theorem C7_amended (r : Record) (s : Str) (today end_date : PyDate) (y : Nat)
    (hb : r.birthday = some s) (hparse : strptimeDate s = some ⟨y, 2, 29⟩)
    (hleap : isLeap today.year = false)
    (hadd : pyAddDays 7 today = some end_date) :
    upcomingEntry today end_date r = none ∧
    ∀ (b1 b2 : Book) (k : Str),
      AddressBook.get_upcoming_birthdays (b1 ++ (k, r) :: b2) today =
        AddressBook.get_upcoming_birthdays (b1 ++ b2) today := by
  have hnone : replaceYear ⟨y, 2, 29⟩ today.year = none := by
    unfold replaceYear
    rw [if_neg]
    rw [isValidDate_iff]
    dsimp only
    intro hcon
    obtain ⟨_, _, _, _, _, h6⟩ := hcon
    rw [daysInMonth_feb, hleap] at h6
    simp at h6
  have h1 : upcomingEntry today end_date r = none := by
    unfold upcomingEntry
    rw [hb]
    dsimp only
    rw [hparse]
    dsimp only
    rw [hnone]
  refine ⟨h1, ?_⟩
  intro b1 b2 k
  unfold AddressBook.get_upcoming_birthdays
  rw [hadd]
  dsimp only
  rw [List.map_append, List.map_append, List.map_cons, List.filterMap_append,
    List.filterMap_append, List.filterMap_cons_none h1]

/-- C7 amended witness: the theorem applied to a record with birthday
29.02.1996 and today = 2025-06-10 (2025 is not a leap year, and
today + 7 days is representable). -/
theorem C7_amended_witness :
    upcomingEntry ⟨2025, 6, 10⟩ ⟨2025, 6, 17⟩
      ⟨"L".toList, [], some ("29.02.1996".toList)⟩ = none :=
  (C7_amended ⟨"L".toList, [], some ("29.02.1996".toList)⟩
    ("29.02.1996".toList) ⟨2025, 6, 10⟩ ⟨2025, 6, 17⟩ 1996 rfl (by decide)
    (by decide) (by decide)).1

/-- C5: case-insensitive key uniqueness is an invariant of every
handler-reachable book state: the lowercased keys are pairwise distinct,
so no two stored records have names differing only by case.  On the
scenario, after add_contact of "Anna" and an attempted add_contact of
"ANNA", name_exists "anna" is true and exactly one entry carries that
case-insensitive key, retrievable via find. -/
theorem C5_case_insensitive_uniqueness :
    (∀ b : Book, Reachable b → (b.map (fun kv => lowerStr kv.1)).Nodup) ∧
    (AddressBook.name_exists
        (add_contact ["ANNA".toList, "0987654321".toList]
          (add_contact ["Anna".toList, "1234567890".toList] []))
        ("anna".toList) = true ∧
      ((add_contact ["ANNA".toList, "0987654321".toList]
          (add_contact ["Anna".toList, "1234567890".toList] [])).filter
        (fun kv => lowerStr kv.1 == lowerStr ("anna".toList))).length = 1 ∧
      AddressBook.find
        (add_contact ["ANNA".toList, "0987654321".toList]
          (add_contact ["Anna".toList, "1234567890".toList] []))
        ("anna".toList) =
          some ⟨"Anna".toList, ["1234567890".toList], none⟩) := by
  constructor
  · intro b hb
    exact (reachable_goodBook b hb).2
  · refine ⟨by decide, by decide, by decide⟩

/-- C5 witness: the invariant applied to the reachable book that results
from the two add_contact calls of the scenario. -/
theorem C5_case_insensitive_uniqueness_witness :
    ((add_contact ["ANNA".toList, "0987654321".toList]
        (add_contact ["Anna".toList, "1234567890".toList] [])).map
      (fun kv => lowerStr kv.1)).Nodup :=
  C5_case_insensitive_uniqueness.1 _
    (Reachable.addC _ _ (Reachable.addC _ _ Reachable.empty))
